import Mathlib

/-!
Verification of the prime-field arithmetic and polynomial transform engine
declared in `galois.d.ts` (`@guildofweavers/galois`).

The repository ships only the TypeScript declaration of the `FiniteField`
interface; the executable behaviour of each operation is therefore modelled
from the specification document ("Modelled from the spec" in each doc
comment).  Field elements are arbitrary-precision integers (`bigint`) kept in
the canonical range `[0, p)`; we embed them as `ℕ` with explicit `% p`
reductions, and use `ZMod p` only inside proofs.
-/

namespace Galois

/-- Error kinds of the engine, from the spec's error handling design. -/
inductive GErr where
  | DivisionByZero
  | NotInvertible
  | DimensionMismatch
  | InvalidOrder
  | InvalidDomain
  | DuplicateXCoordinate
  | InvalidDegree
  | NotDivisible
deriving DecidableEq, Repr

/-- Modelled from the spec: `mod(value)` reduces an arbitrary-precision integer
(possibly negative) into canonical range using true mathematical modulo. -/
def fmod (p : ℕ) (v : ℤ) : ℕ := (v % (p : ℤ)).toNat

/-- Modelled from the spec: `add(x, y)`, standard modular addition. -/
def add (p x y : ℕ) : ℕ := (x + y) % p

/-- Modelled from the spec: `sub(x, y)`, modular subtraction through the
canonical reduction (correct for the intermediate negative difference). -/
def sub (p x y : ℕ) : ℕ := fmod p ((x : ℤ) - (y : ℤ))

/-- Modelled from the spec: `mul(x, y)`, standard modular multiplication. -/
def mul (p x y : ℕ) : ℕ := x * y % p

/-- Modelled from the spec: `exp(b, e)` by square-and-multiply (fast
exponentiation rather than repeated multiplication). -/
def exp (p b e : ℕ) : ℕ :=
  if h : e = 0 then 1 % p
  else
    let r := exp p (b * b % p) (e / 2)
    if e % 2 = 1 then b * r % p else r
termination_by e
decreasing_by exact Nat.div_lt_self (Nat.pos_of_ne_zero h) one_lt_two

/-- Modelled from the spec: the value produced by the Extended Euclidean
Algorithm for the modular inverse, reduced into canonical range.  `Nat.gcdA`
is the Bezout coefficient of the extended Euclidean algorithm. -/
def invVal (p v : ℕ) : ℕ := fmod p (Nat.gcdA (v % p) p)

/-- Modelled from the spec: `inv(value)` via the Extended Euclidean Algorithm;
fails with `NotInvertible` when `value ≡ 0 (mod p)`. -/
def inv (p v : ℕ) : Except GErr ℕ :=
  if v % p = 0 then .error .NotInvertible else .ok (invVal p v)

/-- Modelled from the spec: `div(x, y)` fails with `DivisionByZero` when
`y ≡ 0 (mod p)`, otherwise returns `x * inv(y) mod p`. -/
def div (p x y : ℕ) : Except GErr ℕ :=
  if y % p = 0 then .error .DivisionByZero
  else .ok (x * invVal p y % p)

-- ## Bridging lemmas between the `ℕ` embedding and `ZMod p`

theorem fmod_lt (p : ℕ) (hp : 0 < p) (v : ℤ) : fmod p v < p := by
  have h0 : (0 : ℤ) < (p : ℤ) := by exact_mod_cast hp
  have := Int.emod_lt_of_pos v h0
  have hnn := Int.emod_nonneg v (by omega : (p : ℤ) ≠ 0)
  unfold fmod
  omega

theorem fmod_cast (p : ℕ) (hp : 0 < p) (v : ℤ) :
    ((fmod p v : ℕ) : ZMod p) = (v : ZMod p) := by
  have hnn := Int.emod_nonneg v (by omega : (p : ℤ) ≠ 0)
  have h1 : ((fmod p v : ℕ) : ℤ) = v % (p : ℤ) := by
    unfold fmod; omega
  calc ((fmod p v : ℕ) : ZMod p) = (((fmod p v : ℕ) : ℤ) : ZMod p) := by push_cast; ring
    _ = ((v % (p : ℤ)) : ZMod p) := by rw [h1]
    _ = (v : ZMod p) := ZMod.intCast_mod v p

theorem natCast_inj_of_lt {p a b : ℕ} (ha : a < p) (hb : b < p)
    (h : (a : ZMod p) = b) : a = b := by
  have := congrArg ZMod.val h
  rwa [ZMod.val_cast_of_lt ha, ZMod.val_cast_of_lt hb] at this

theorem mod_cast_zmod (p a : ℕ) : ((a % p : ℕ) : ZMod p) = (a : ZMod p) :=
  ZMod.natCast_mod a p

theorem exp_eq (p b e : ℕ) : exp p b e = b ^ e % p := by
  induction e using Nat.strong_induction_on generalizing b with
  | _ e ih =>
    rw [exp]
    by_cases h : e = 0
    · simp [h]
    · have h2 : e / 2 < e := Nat.div_lt_self (Nat.pos_of_ne_zero h) one_lt_two
      simp only [h, dite_false]
      rw [ih _ h2]
      rcases Nat.even_or_odd e with he | he
      · have h1 : e % 2 = 0 := Nat.even_iff.mp he
        rw [if_neg (by omega)]
        rw [Nat.pow_mod, Nat.mod_mod_of_dvd _ (dvd_refl p), ← Nat.pow_mod]
        have hbb : (b * b) ^ (e / 2) = b ^ e := by
          rw [← pow_two, ← pow_mul]
          congr 1
          omega
        rw [hbb]
      · have h1 : e % 2 = 1 := Nat.odd_iff.mp he
        rw [if_pos h1]
        rw [Nat.pow_mod, Nat.mod_mod_of_dvd _ (dvd_refl p), ← Nat.pow_mod]
        rw [Nat.mul_mod, Nat.mod_mod_of_dvd _ (dvd_refl p), ← Nat.mul_mod]
        have hbb : b * (b * b) ^ (e / 2) = b ^ e := by
          rw [← pow_two, ← pow_mul, ← pow_succ']
          congr 1
          omega
        rw [hbb]

theorem exp_lt (p b e : ℕ) (hp : 0 < p) : exp p b e < p := by
  rw [exp_eq]; exact Nat.mod_lt _ hp

theorem exp_cast (p b e : ℕ) : ((exp p b e : ℕ) : ZMod p) = (b : ZMod p) ^ e := by
  rw [exp_eq, mod_cast_zmod]; push_cast; ring

theorem cast_ne_zero_of_mod (p v : ℕ) (hp : 0 < p) (hv : v % p ≠ 0) :
    (v : ZMod p) ≠ 0 := by
  intro h
  haveI : NeZero p := ⟨by omega⟩
  have hd : p ∣ v := (ZMod.natCast_zmod_eq_zero_iff_dvd v p).mp h
  rcases hd with ⟨c, rfl⟩
  exact hv (Nat.mul_mod_right p c)

theorem invVal_lt (p v : ℕ) (hp : 0 < p) : invVal p v < p := fmod_lt p hp _

theorem invVal_mul_cast (p v : ℕ) (hp : p.Prime) (hv : v % p ≠ 0) :
    ((invVal p v : ℕ) : ZMod p) * (v : ZMod p) = 1 := by
  have hp0 : 0 < p := hp.pos
  have halt : v % p < p := Nat.mod_lt _ hp0
  have hcop : Nat.gcd (v % p) p = 1 := by
    have hnd : ¬ p ∣ (v % p) := by
      intro hd
      have := Nat.le_of_dvd (Nat.pos_of_ne_zero hv) hd
      omega
    have h2 := (Nat.Prime.coprime_iff_not_dvd hp).mpr hnd
    exact Nat.Coprime.symm h2
  have hbez := Nat.gcd_eq_gcd_ab (v % p) p
  rw [hcop] at hbez
  have hz : (1 : ZMod p) = ((v % p : ℕ) : ZMod p) * ((Nat.gcdA (v % p) p : ℤ) : ZMod p) := by
    have := congrArg (fun z : ℤ => (z : ZMod p)) hbez
    simp only [Int.cast_one, Int.cast_add, Int.cast_mul, Int.cast_natCast] at this
    rw [ZMod.natCast_self] at this
    simpa using this
  have hiv : ((invVal p v : ℕ) : ZMod p) = ((Nat.gcdA (v % p) p : ℤ) : ZMod p) := by
    unfold invVal
    rw [fmod_cast p hp0]
  rw [hiv, ← mod_cast_zmod p v, mul_comm]
  exact hz.symm

theorem invVal_cast_eq_inv (p v : ℕ) (hp : p.Prime) (hv : v % p ≠ 0) :
    ((invVal p v : ℕ) : ZMod p) = (v : ZMod p)⁻¹ := by
  haveI : Fact p.Prime := ⟨hp⟩
  exact eq_inv_of_mul_eq_one_left (invVal_mul_cast p v hp hv)

-- ## Polynomial operations (ascending-degree coefficient lists)

/-- Modelled from the spec: `addPolys(a, b)` adds coefficient-by-coefficient,
padding the shorter sequence with zeros. -/
def addPolys (p : ℕ) : List ℕ → List ℕ → List ℕ
  | [], b => b.map (fun v => v % p)
  | x :: a, [] => (x % p) :: addPolys p a []
  | x :: a, y :: b => ((x + y) % p) :: addPolys p a b

/-- Modelled from the spec: `subPolys(a, b)` subtracts coefficient-by-coefficient,
padding the shorter sequence with zeros. -/
def subPolys (p : ℕ) : List ℕ → List ℕ → List ℕ
  | [], b => b.map (fun v => fmod p (-(v : ℤ)))
  | x :: a, [] => (x % p) :: subPolys p a []
  | x :: a, y :: b => (fmod p ((x : ℤ) - (y : ℤ))) :: subPolys p a b

/-- Modelled from the spec: `mulPolyByConstant(b, c)` scales every coefficient. -/
def mulPolyByConstant (p : ℕ) (b : List ℕ) (c : ℕ) : List ℕ :=
  b.map (fun v => v * c % p)

/-- Modelled from the spec: `mulPolys(a, b)` is full polynomial multiplication
(convolution of the coefficient sequences), written recursively:
`(c + x·a(x))·b(x) = c·b(x) + x·(a(x)·b(x))`. -/
def mulPolys (p : ℕ) : List ℕ → List ℕ → List ℕ
  | [], _ => []
  | c :: a, b => addPolys p (b.map (fun v => c * v % p)) (0 :: mulPolys p a b)

/-- Modelled from the spec: `evalPolyAt(poly, x)` evaluates the polynomial at a
single point by Horner's rule, every intermediate reduced mod `p`. -/
def evalPolyAt (p : ℕ) (poly : List ℕ) (x : ℕ) : ℕ :=
  poly.foldr (fun c acc => (c + x * acc) % p) 0

-- ## Semantic denotation into `Polynomial (ZMod p)` (proof device)

/-- Denotation of a coefficient list as a polynomial over `ZMod p`. -/
noncomputable def listPoly (p : ℕ) (l : List ℕ) : Polynomial (ZMod p) :=
  l.foldr (fun c q => Polynomial.C (c : ZMod p) + Polynomial.X * q) 0

theorem listPoly_nil (p : ℕ) : listPoly p [] = 0 := rfl

theorem listPoly_cons (p c : ℕ) (l : List ℕ) :
    listPoly p (c :: l) = Polynomial.C (c : ZMod p) + Polynomial.X * listPoly p l := rfl

theorem listPoly_coeff (p : ℕ) (l : List ℕ) (k : ℕ) :
    (listPoly p l).coeff k = ((l.getD k 0 : ℕ) : ZMod p) := by
  induction l generalizing k with
  | nil => simp [listPoly]
  | cons c t ih =>
    cases k with
    | zero =>
      simp [listPoly_cons, Polynomial.coeff_add, Polynomial.mul_coeff_zero,
        Polynomial.coeff_X_zero]
    | succ k =>
      simp [listPoly_cons, Polynomial.coeff_X_mul, ih,
        Polynomial.coeff_C, Nat.succ_ne_zero]

theorem listPoly_map_mod (p : ℕ) (l : List ℕ) :
    listPoly p (l.map (fun v => v % p)) = listPoly p l := by
  induction l with
  | nil => rfl
  | cons c t ih => simp [listPoly_cons, ih, mod_cast_zmod]

theorem listPoly_scale (p c : ℕ) (l : List ℕ) :
    listPoly p (l.map (fun v => c * v % p)) =
      Polynomial.C (c : ZMod p) * listPoly p l := by
  induction l with
  | nil => simp [listPoly]
  | cons d t ih =>
    simp only [List.map_cons, listPoly_cons, ih, mod_cast_zmod]
    push_cast
    rw [map_mul]
    ring

theorem listPoly_addPolys (p : ℕ) (u v : List ℕ) :
    listPoly p (addPolys p u v) = listPoly p u + listPoly p v := by
  induction u generalizing v with
  | nil => simp [addPolys, listPoly_map_mod, listPoly_nil]
  | cons x u ih =>
    cases v with
    | nil =>
      simp only [addPolys, listPoly_cons, listPoly_nil, ih, mod_cast_zmod]
      ring
    | cons y v =>
      simp only [addPolys, listPoly_cons, ih, mod_cast_zmod]
      push_cast
      rw [map_add]
      ring

theorem listPoly_mulPolys (p : ℕ) (a b : List ℕ) :
    listPoly p (mulPolys p a b) = listPoly p a * listPoly p b := by
  induction a with
  | nil => simp [mulPolys, listPoly_nil]
  | cons c a ih =>
    simp only [mulPolys, listPoly_addPolys, listPoly_scale, listPoly_cons, ih,
      listPoly_nil, Nat.cast_zero, map_zero]
    ring

-- ## Range bounds on coefficient lists

theorem addPolys_all_lt (p : ℕ) (hp : 0 < p) (u v : List ℕ) :
    ∀ c ∈ addPolys p u v, c < p := by
  induction u generalizing v with
  | nil =>
    intro c hc
    simp only [addPolys, List.mem_map] at hc
    rcases hc with ⟨d, _, rfl⟩
    exact Nat.mod_lt _ hp
  | cons x u ih =>
    cases v with
    | nil =>
      intro c hc
      rcases List.mem_cons.mp hc with rfl | hc
      · exact Nat.mod_lt _ hp
      · exact ih [] c hc
    | cons y v =>
      intro c hc
      rcases List.mem_cons.mp hc with rfl | hc
      · exact Nat.mod_lt _ hp
      · exact ih v c hc

theorem mulPolys_all_lt (p : ℕ) (hp : 0 < p) (a b : List ℕ) :
    ∀ c ∈ mulPolys p a b, c < p := by
  induction a with
  | nil => intro c hc; simp [mulPolys] at hc
  | cons d a ih =>
    intro c hc
    exact addPolys_all_lt p hp _ _ c hc

theorem getD_lt_of_all (p : ℕ) (hp : 0 < p) (l : List ℕ) (k : ℕ)
    (h : ∀ c ∈ l, c < p) : l.getD k 0 < p := by
  induction l generalizing k with
  | nil => simpa using hp
  | cons c t ih =>
    cases k with
    | zero => exact h c (List.mem_cons_self c t)
    | succ k =>
      simp only [List.getD_cons_succ]
      exact ih k (fun d hd => h d (List.mem_cons_of_mem c hd))

-- ## Arithmetic helpers for mod juggling

theorem mul_mod_modR (p x s : ℕ) : x * (s % p) % p = x * s % p := by
  rw [Nat.mul_mod, Nat.mod_mod_of_dvd s (dvd_refl p), ← Nat.mul_mod]

theorem add_mod_modR (p c s : ℕ) : (c + s % p) % p = (c + s) % p := by
  rw [Nat.add_mod, Nat.mod_mod_of_dvd s (dvd_refl p), ← Nat.add_mod]

-- ## Single-point evaluation: Horner form equals the coefficient power sum

theorem evalPolyAt_lt (p : ℕ) (hp : 0 < p) (poly : List ℕ) (x : ℕ) :
    evalPolyAt p poly x < p := by
  cases poly with
  | nil => simpa [evalPolyAt] using hp
  | cons c t => exact Nat.mod_lt _ hp

theorem evalPolyAt_cast (p : ℕ) (hp : 0 < p) (l : List ℕ) (x : ℕ) :
    ((evalPolyAt p l x : ℕ) : ZMod p) =
      (listPoly p l).eval ((x : ℕ) : ZMod p) := by
  induction l with
  | nil => simp [evalPolyAt, listPoly_nil]
  | cons c t ih =>
    show (((c + x * evalPolyAt p t x) % p : ℕ) : ZMod p) = _
    rw [mod_cast_zmod]
    push_cast
    rw [ih, listPoly_cons]
    simp [Polynomial.eval_add, Polynomial.eval_mul]

theorem evalPolyAt_power_sum (p : ℕ) (poly : List ℕ) (x : ℕ) :
    evalPolyAt p poly x =
      (∑ i ∈ Finset.range poly.length, poly.getD i 0 * x ^ i) % p := by
  induction poly with
  | nil => simp [evalPolyAt]
  | cons c t ih =>
    show (c + x * evalPolyAt p t x) % p = _
    rw [ih]
    rw [← add_mod_modR p c (x * (_ % p)), mul_mod_modR, add_mod_modR]
    congr 1
    rw [List.length_cons, Finset.sum_range_succ']
    simp only [List.getD_cons_succ, List.getD_cons_zero, pow_zero, mul_one]
    rw [Finset.mul_sum]
    rw [add_comm]
    congr 1
    apply Finset.sum_congr rfl
    intro i _
    ring

/-- C10: `evalPolyAt(p, x)` returns the sum over `i` of `p[i] * x^i` reduced
mod the modulus, and the empty polynomial evaluates to `0`. -/
theorem evalPolyAt_is_power_sum (p : ℕ) (poly : List ℕ) (x : ℕ) :
    evalPolyAt p poly x =
      (∑ i ∈ Finset.range poly.length, poly.getD i 0 * x ^ i) % p ∧
    evalPolyAt p [] x = 0 :=
  ⟨evalPolyAt_power_sum p poly x, rfl⟩

theorem evalPolyAt_cast_sum (p : ℕ) (l : List ℕ) (x : ℕ) :
    ((evalPolyAt p l x : ℕ) : ZMod p) =
      ∑ j ∈ Finset.range l.length,
        ((l.getD j 0 : ℕ) : ZMod p) * ((x : ℕ) : ZMod p) ^ j := by
  rw [evalPolyAt_power_sum, mod_cast_zmod]
  push_cast
  rfl

/-- C3: `mulPolys(a, b)` is full polynomial multiplication: coefficient `k` of
the result is the convolution sum of the two coefficient sequences, reduced
mod `p` (not a coefficient-by-coefficient product). -/
theorem mulPolys_is_convolution (p : ℕ) (a b : List ℕ) (k : ℕ) (hp : 0 < p) :
    (mulPolys p a b).getD k 0 =
      (∑ i ∈ Finset.range (k + 1), a.getD i 0 * b.getD (k - i) 0) % p := by
  apply natCast_inj_of_lt
    (getD_lt_of_all p hp _ k (mulPolys_all_lt p hp a b)) (Nat.mod_lt _ hp)
  rw [← listPoly_coeff, listPoly_mulPolys, Polynomial.coeff_mul]
  rw [mod_cast_zmod]
  push_cast
  rw [Finset.Nat.sum_antidiagonal_eq_sum_range_succ_mk]
  apply Finset.sum_congr rfl
  intro i _
  rw [listPoly_coeff, listPoly_coeff]

-- ## Montgomery batch inversion

/-- Modelled from the spec: the total running product of all values (forward
pass of Montgomery batch inversion), reduced mod `p` at every step. -/
def totalProd (p : ℕ) (values : List ℕ) : ℕ :=
  values.foldr (fun v acc => v * acc % p) (1 % p)

/-- Modelled from the spec: backward pass of Montgomery batch inversion.
Given `t`, the inverse of the product of `values`, each element's inverse is
recovered by multiplications only. -/
def invManyBack (p : ℕ) : List ℕ → ℕ → List ℕ
  | [], _ => []
  | v :: rest, t => (t * totalProd p rest % p) :: invManyBack p rest (t * v % p)

/-- Modelled from the spec: `invMany(values)` using Montgomery batch inversion:
one pass of running products, a single `inv()` call on the total product, then
a backward pass recovering each inverse.  A zero input makes the total product
zero, so the single inversion fails with `NotInvertible` and no partial
results are returned. -/
def invMany (p : ℕ) (values : List ℕ) : Except GErr (List ℕ) :=
  match inv p (totalProd p values) with
  | .error e => .error e
  | .ok t => .ok (invManyBack p values t)

theorem totalProd_lt (p : ℕ) (hp : 0 < p) (l : List ℕ) : totalProd p l < p := by
  cases l with
  | nil => exact Nat.mod_lt _ hp
  | cons v rest => exact Nat.mod_lt _ hp

theorem totalProd_cast (p : ℕ) (hp : 0 < p) (l : List ℕ) :
    ((totalProd p l : ℕ) : ZMod p) = (l.map (fun v => ((v : ℕ) : ZMod p))).prod := by
  induction l with
  | nil =>
    show (((1 % p : ℕ) : ZMod p)) = _
    rw [mod_cast_zmod]
    simp
  | cons v rest ih =>
    show (((v * totalProd p rest % p : ℕ)) : ZMod p) = _
    rw [mod_cast_zmod]
    push_cast
    rw [ih]
    simp

theorem totalProd_cast_ne_zero (p : ℕ) (hp : p.Prime) (l : List ℕ)
    (h : ∀ v ∈ l, v % p ≠ 0) : ((totalProd p l : ℕ) : ZMod p) ≠ 0 := by
  haveI : Fact p.Prime := ⟨hp⟩
  rw [totalProd_cast p hp.pos]
  apply List.prod_ne_zero
  intro hx
  rcases List.mem_map.mp hx with ⟨v, hv, hc⟩
  exact cast_ne_zero_of_mod p v hp.pos (h v hv) hc

theorem invManyBack_eq_map (p : ℕ) (hp : p.Prime) (l : List ℕ)
    (hnz : ∀ v ∈ l, v % p ≠ 0) :
    ∀ t : ℕ, ((t : ℕ) : ZMod p) = (((totalProd p l : ℕ) : ZMod p))⁻¹ →
      invManyBack p l t = l.map (invVal p) := by
  haveI : Fact p.Prime := ⟨hp⟩
  induction l with
  | nil => intro t _; rfl
  | cons v rest ih =>
    intro t ht
    have hv : v % p ≠ 0 := hnz v (List.mem_cons_self v rest)
    have hrest : ∀ w ∈ rest, w % p ≠ 0 :=
      fun w hw => hnz w (List.mem_cons_of_mem v hw)
    have hvz : ((v : ℕ) : ZMod p) ≠ 0 := cast_ne_zero_of_mod p v hp.pos hv
    have hPz : ((totalProd p rest : ℕ) : ZMod p) ≠ 0 :=
      totalProd_cast_ne_zero p hp rest hrest
    have hcons : ((totalProd p (v :: rest) : ℕ) : ZMod p) =
        ((v : ℕ) : ZMod p) * ((totalProd p rest : ℕ) : ZMod p) := by
      show (((v * totalProd p rest % p : ℕ)) : ZMod p) = _
      rw [mod_cast_zmod]
      push_cast
      ring
    show (t * totalProd p rest % p) :: invManyBack p rest (t * v % p) = _
    rw [List.map_cons]
    congr 1
    · apply natCast_inj_of_lt (Nat.mod_lt _ hp.pos) (invVal_lt p v hp.pos)
      rw [mod_cast_zmod]
      push_cast
      rw [ht, hcons, invVal_cast_eq_inv p v hp hv, mul_inv_rev]
      field_simp
    · apply ih hrest
      rw [mod_cast_zmod]
      push_cast
      rw [ht, hcons, mul_inv_rev]
      field_simp
      ring

/-- C5: for all-nonzero inputs, `invMany` agrees with applying `inv` to each
element individually; if any input is zero it fails with `NotInvertible` and
returns no partial results. -/
theorem invMany_spec (p : ℕ) (values : List ℕ) (hp : p.Prime) :
    ((∀ v ∈ values, v % p ≠ 0) → invMany p values = values.mapM (inv p))
    ∧ ((∃ v ∈ values, v % p = 0) → invMany p values = .error .NotInvertible) := by
  haveI : Fact p.Prime := ⟨hp⟩
  constructor
  · intro hnz
    have htp : totalProd p values % p ≠ 0 := by
      intro h0
      have : ((totalProd p values : ℕ) : ZMod p) = 0 := by
        rw [← mod_cast_zmod, h0]
        simp
      exact totalProd_cast_ne_zero p hp values hnz this
    have hmapM : values.mapM (inv p) = .ok (values.map (invVal p)) := by
      clear htp
      induction values with
      | nil => rfl
      | cons v rest ih =>
        have hv : v % p ≠ 0 := hnz v (List.mem_cons_self v rest)
        have hrest : ∀ w ∈ rest, w % p ≠ 0 :=
          fun w hw => hnz w (List.mem_cons_of_mem v hw)
        rw [List.mapM_cons, ih hrest]
        simp only [inv, if_neg hv]
        rfl
    rw [hmapM]
    unfold invMany
    have hinv : inv p (totalProd p values) = .ok (invVal p (totalProd p values)) := by
      unfold inv
      rw [if_neg htp]
    rw [hinv]
    show Except.ok (invManyBack p values (invVal p (totalProd p values))) = _
    exact congrArg Except.ok (invManyBack_eq_map p hp values hnz _
      (invVal_cast_eq_inv p (totalProd p values) hp htp))
  · rintro ⟨v, hv, hv0⟩
    have h0 : totalProd p values % p = 0 := by
      have hc : ((totalProd p values : ℕ) : ZMod p) = 0 := by
        rw [totalProd_cast p hp.pos]
        apply List.prod_eq_zero
        rw [List.mem_map]
        refine ⟨v, hv, ?_⟩
        rw [← mod_cast_zmod, hv0]
        simp
      have hlt := totalProd_lt p hp.pos values
      rw [Nat.mod_eq_of_lt hlt]
      exact natCast_inj_of_lt hlt hp.pos (by simpa using hc)
    unfold invMany
    rw [inv, if_pos h0]

-- ## Scalar error handling

/-- C7: `div(x, y)` fails with `DivisionByZero` exactly when `y ≡ 0 (mod p)`
and otherwise returns `x * inv(y) mod p`; `inv(value)` fails with
`NotInvertible` exactly when `value ≡ 0 (mod p)`. -/
theorem div_inv_error_spec (p x y v : ℕ) :
    (div p x y = .error .DivisionByZero ↔ y % p = 0)
    ∧ (y % p ≠ 0 → div p x y = .ok (x * invVal p y % p) ∧ inv p y = .ok (invVal p y))
    ∧ (inv p v = .error .NotInvertible ↔ v % p = 0) := by
  refine ⟨?_, ?_, ?_⟩
  · by_cases h : y % p = 0 <;> simp [div, h]
  · intro h; simp [div, inv, h]
  · by_cases h : v % p = 0 <;> simp [inv, h]

-- ## Randomness

/-- Modelled from the spec: `prng(seed, length)` derives a deterministic
pseudorandom sequence by hashing seed and counter and reducing mod `p`; the
cryptographic hash expansion itself is abstracted as a function parameter. -/
def prng (p : ℕ) (hash : ℕ → ℕ → ℕ) (seed : ℕ) (length : ℕ) : List ℕ :=
  (List.range length).map (fun i => hash seed i % p)

/-- C9: prng is deterministic: two calls with the same seed and the same
length produce identical sequences of field elements. -/
theorem prng_deterministic (p : ℕ) (hash : ℕ → ℕ → ℕ) (s1 s2 n1 n2 : ℕ)
    (hs : s1 = s2) (hn : n1 = n2) :
    prng p hash s1 n1 = prng p hash s2 n2 := by
  rw [hs, hn]

-- ## Roots of unity

/-- Modelled from the spec: mandatory primitivity verification of a candidate
root: `r^order = 1` and `r^(order/q) ≠ 1` for every prime factor `q` of
`order`. -/
def primitiveCheck (p r order : ℕ) : Bool :=
  (exp p r order == 1 % p) &&
    order.primeFactorsList.all (fun q => exp p r (order / q) != 1 % p)

/-- Modelled from the spec: find a generator of the multiplicative group: the
smallest element of order `p - 1`. -/
def findGenerator (p : ℕ) : ℕ :=
  ((List.range p).find? (fun g => primitiveCheck p g (p - 1))).getD 0

/-- Modelled from the spec: `getRootOfUnity(order)`: `order` must divide `p-1`
(failing with `InvalidOrder` otherwise); compute `g^((p-1)/order)` for a
generator `g`, and verify primitivity before returning (the spec makes the
verification mandatory; a candidate failing it is also an invalid order). -/
def getRootOfUnity (p order : ℕ) : Except GErr ℕ :=
  if (p - 1) % order = 0 ∧ 0 < order then
    let r := exp p (findGenerator p) ((p - 1) / order)
    if primitiveCheck p r order then .ok r else .error .InvalidOrder
  else .error .InvalidOrder

/-- Success predicate for `getRootOfUnity`: whenever a root is returned, it is
a primitive root of unity of the requested order. -/
def rootOkSpec (p order : ℕ) : Except GErr ℕ → Prop
  | .error _ => True
  | .ok r => r ^ order % p = 1 ∧ ∀ j, 0 < j → j < order → r ^ j % p ≠ 1

theorem primitiveCheck_orderOf (p r order : ℕ) (hp : p.Prime) (h0 : 0 < order)
    (hchk : primitiveCheck p r order = true) :
    orderOf ((r : ℕ) : ZMod p) = order := by
  have hp2 : 2 ≤ p := hp.two_le
  have h1p : (1 % p : ℕ) = 1 := Nat.mod_eq_of_lt (by omega)
  simp only [primitiveCheck, Bool.and_eq_true, beq_iff_eq, List.all_eq_true,
    bne_iff_ne, ne_eq] at hchk
  obtain ⟨h1, h2⟩ := hchk
  apply orderOf_eq_of_pow_and_pow_div_prime h0
  · have := congrArg (fun n : ℕ => ((n : ℕ) : ZMod p)) h1
    simp only [exp_cast, h1p, Nat.cast_one] at this
    exact this
  · intro q hq hqd
    intro hpow
    have hmem : q ∈ order.primeFactorsList :=
      (Nat.mem_primeFactorsList (by omega)).mpr ⟨hq, hqd⟩
    apply h2 q hmem
    have hpp : 0 < p := by omega
    apply natCast_inj_of_lt (exp_lt p r (order / q) hpp) (Nat.mod_lt _ hpp)
    rw [exp_cast, hpow, mod_cast_zmod]
    simp

/-- C6: `getRootOfUnity(order)` fails with `InvalidOrder` whenever `order`
does not divide `p - 1`; otherwise any returned element `r` satisfies
`r^order ≡ 1 (mod p)` and `r^j ≢ 1 (mod p)` for all `0 < j < order`. -/
theorem getRootOfUnity_spec (p order : ℕ) (hp : p.Prime) :
    (¬ order ∣ (p - 1) → getRootOfUnity p order = .error .InvalidOrder)
    ∧ rootOkSpec p order (getRootOfUnity p order) := by
  have hp2 : 2 ≤ p := hp.two_le
  have h1p : (1 % p : ℕ) = 1 := Nat.mod_eq_of_lt (by omega)
  constructor
  · intro hnd
    unfold getRootOfUnity
    rw [if_neg]
    rintro ⟨hmod, _⟩
    exact hnd (Nat.dvd_of_mod_eq_zero hmod)
  · unfold getRootOfUnity
    by_cases hg : (p - 1) % order = 0 ∧ 0 < order
    · rw [if_pos hg]
      by_cases hchk : primitiveCheck p (exp p (findGenerator p) ((p - 1) / order)) order = true
      · rw [if_pos hchk]
        have hord := primitiveCheck_orderOf p _ order hp hg.2 hchk
        show _ ∧ _
        constructor
        · apply natCast_inj_of_lt (Nat.mod_lt _ (by omega : 0 < p)) (by omega : 1 < p)
          rw [mod_cast_zmod]
          push_cast
          have h4 := pow_orderOf_eq_one
            (((exp p (findGenerator p) ((p - 1) / order) : ℕ)) : ZMod p)
          rw [hord] at h4
          exact h4
        · intro j hj0 hjo hcon
          have h5 : (((exp p (findGenerator p) ((p - 1) / order) ^ j % p : ℕ)) : ZMod p) =
              ((1 : ℕ) : ZMod p) := by rw [hcon]
          rw [mod_cast_zmod] at h5
          push_cast at h5
          exact pow_ne_one_of_lt_orderOf (by omega) (by rw [hord]; exact hjo) h5
      · rw [if_neg hchk]
        trivial
    · rw [if_neg hg]
      trivial

-- ## Transform: evaluation at a power cycle and its inverse

/-- Modelled from the spec: the power cycle of a root of unity of order `k`:
the ordered sequence of its first `k` powers (the full cycle the code builds
by repeated multiplication until `1` recurs). -/
def getPowerCycle (p r k : ℕ) : List ℕ :=
  (List.range k).map (fun i => r ^ i % p)

/-- Modelled from the spec and the declaration's doc comment:
`evalPolyAtRoots(poly, rootsOfUnity)` evaluates the polynomial at every
provided root of unity (the FFT strategy changes the cost, not the values). -/
def evalPolyAtRoots (p : ℕ) (poly roots : List ℕ) : List ℕ :=
  roots.map (evalPolyAt p poly)

/-- Modelled from the spec: the inverse-root power cycle derived from a power
cycle: the leading `r^0` followed by the remaining powers reversed, which is
the power cycle of `r⁻¹`. -/
def invCycle : List ℕ → List ℕ
  | [] => []
  | h :: t => h :: t.reverse

/-- Modelled from the spec: `interpolateRoots(rootsOfUnity, ys)`: evaluate the
values, read as coefficients, at the inverse roots, then scale every result
by the modular inverse of the domain size. -/
def interpolateRoots (p : ℕ) (roots ys : List ℕ) : List ℕ :=
  (invCycle roots).map (fun s => evalPolyAt p ys s * invVal p roots.length % p)

theorem getPowerCycle_length (p r k : ℕ) : (getPowerCycle p r k).length = k := by
  simp [getPowerCycle]

theorem invCycle_length (l : List ℕ) : (invCycle l).length = l.length := by
  cases l with
  | nil => rfl
  | cons h t => simp [invCycle]

theorem getD_eq_getElem_of_lt (l : List ℕ) (n : ℕ) (h : n < l.length) :
    l.getD n 0 = l[n] := by
  rw [List.getD_eq_getElem?_getD, List.getElem?_eq_getElem h]
  rfl

theorem getD_map_range (f : ℕ → ℕ) (k j : ℕ) (h : j < k) :
    ((List.range k).map f).getD j 0 = f j := by
  have hl : j < ((List.range k).map f).length := by simpa using h
  rw [getD_eq_getElem_of_lt _ j hl]
  simp

theorem getD_map_of_lt (f : ℕ → ℕ) (l : List ℕ) (i : ℕ) (h : i < l.length) :
    (l.map f).getD i 0 = f (l.getD i 0) := by
  have hl : i < (l.map f).length := by simpa using h
  rw [getD_eq_getElem_of_lt _ i hl, getD_eq_getElem_of_lt l i h]
  simp

theorem invCycle_powerCycle_getD (p r k i : ℕ) (hp2 : 2 ≤ p)
    (hr1 : r ^ k % p = 1) (hik : i < k) :
    (invCycle (getPowerCycle p r k)).getD i 0 = r ^ (k - i) % p := by
  obtain ⟨t, rfl⟩ : ∃ t, k = t + 1 := ⟨k - 1, by omega⟩
  unfold getPowerCycle
  rw [List.range_succ_eq_map, List.map_cons, List.map_map]
  show ((r ^ 0 % p) :: ((List.range t).map ((fun i => r ^ i % p) ∘ Nat.succ)).reverse).getD i 0 = _
  cases i with
  | zero =>
    simp only [List.getD_cons_zero, pow_zero, Nat.sub_zero]
    rw [hr1, Nat.mod_eq_of_lt (by omega)]
  | succ i =>
    simp only [List.getD_cons_succ]
    have hit : i < t := by omega
    have hl : i < ((List.range t).map ((fun i => r ^ i % p) ∘ Nat.succ)).reverse.length := by
      simpa using hit
    rw [getD_eq_getElem_of_lt _ i hl, List.getElem_reverse]
    simp only [List.getElem_map, List.getElem_range, List.length_map, List.length_range,
      Function.comp_apply]
    have he : Nat.succ (t - 1 - i) = t + 1 - (i + 1) := by omega
    rw [he]

/-- C1: for every polynomial of degree below `k` (given as a length-`k`
canonical coefficient sequence) and the order-`k` power cycle of a primitive
`k`-th root of unity `r`, `interpolateRoots` applied to the values produced by
`evalPolyAtRoots` reproduces the coefficient sequence exactly. -/
theorem interpolateRoots_inverts_evalPolyAtRoots (p r k : ℕ) (poly : List ℕ)
    (hp : p.Prime) (hk0 : 0 < k) (hkp : k < p)
    (hr1 : r ^ k % p = 1)
    (hrj : ∀ j ∈ Finset.range k, j ≠ 0 → r ^ j % p ≠ 1)
    (hlen : poly.length = k) (hcanon : ∀ c ∈ poly, c < p) :
    interpolateRoots p (getPowerCycle p r k)
      (evalPolyAtRoots p poly (getPowerCycle p r k)) = poly := by
  haveI : Fact p.Prime := ⟨hp⟩
  have hp2 : 2 ≤ p := hp.two_le
  have hp0 : 0 < p := hp.pos
  have hz1 : ((r : ℕ) : ZMod p) ^ k = 1 := by
    have h5 : (((r ^ k % p : ℕ)) : ZMod p) = ((1 : ℕ) : ZMod p) := by rw [hr1]
    rw [mod_cast_zmod] at h5
    push_cast at h5
    exact h5
  have hzj : ∀ d, 0 < d → d < k → ((r : ℕ) : ZMod p) ^ d ≠ 1 := by
    intro d hd0 hdk hcon
    apply hrj d (Finset.mem_range.mpr hdk) (by omega)
    apply natCast_inj_of_lt (Nat.mod_lt _ hp0) (by omega : 1 < p)
    rw [mod_cast_zmod]
    push_cast
    exact hcon
  have hgeomK : ∑ j ∈ Finset.range k, (((r : ℕ) : ZMod p) ^ k) ^ j = (k : ZMod p) := by
    rw [hz1]
    simp
  have hgeom0 : ∀ d, 0 < d → d < 2 * k → d ≠ k →
      ∑ j ∈ Finset.range k, (((r : ℕ) : ZMod p) ^ d) ^ j = 0 := by
    intro d hd0 hd2 hdk
    have hx1 : ((r : ℕ) : ZMod p) ^ d ≠ 1 := by
      rcases lt_or_gt_of_ne hdk with h | h
      · exact hzj d hd0 h
      · have hsplit : ((r : ℕ) : ZMod p) ^ d =
            ((r : ℕ) : ZMod p) ^ (d - k) * ((r : ℕ) : ZMod p) ^ k := by
          rw [← pow_add]
          congr 1
          omega
        rw [hsplit, hz1, mul_one]
        exact hzj (d - k) (by omega) (by omega)
    have hxk : (((r : ℕ) : ZMod p) ^ d) ^ k = 1 := by
      rw [← pow_mul, mul_comm, pow_mul, hz1, one_pow]
    have hmul := geom_sum_mul (((r : ℕ) : ZMod p) ^ d) k
    rw [hxk, sub_self] at hmul
    rcases mul_eq_zero.mp hmul with h | h
    · exact h
    · exact absurd (by rwa [sub_eq_zero] at h) hx1
  have hkne : k % p ≠ 0 := by
    rw [Nat.mod_eq_of_lt hkp]
    omega
  have hkz : ((k : ℕ) : ZMod p) ≠ 0 := cast_ne_zero_of_mod p k hp0 hkne
  have hikc : ((invVal p k : ℕ) : ZMod p) = ((k : ℕ) : ZMod p)⁻¹ :=
    invVal_cast_eq_inv p k hp hkne
  have hCl : (getPowerCycle p r k).length = k := getPowerCycle_length p r k
  have hysl : (evalPolyAtRoots p poly (getPowerCycle p r k)).length = k := by
    simp [evalPolyAtRoots, hCl]
  have hys : ∀ j, j < k →
      (evalPolyAtRoots p poly (getPowerCycle p r k)).getD j 0
        = evalPolyAt p poly (r ^ j % p) := by
    intro j hj
    unfold evalPolyAtRoots getPowerCycle
    rw [List.map_map]
    exact getD_map_range _ k j hj
  apply List.ext_getElem
  · simp [interpolateRoots, invCycle_length, hCl, hlen]
  · intro i hi1 hi2
    have hik2 : i < k := by rwa [hlen] at hi2
    rw [← getD_eq_getElem_of_lt _ i hi1, ← getD_eq_getElem_of_lt _ i hi2]
    have hlic : i < (invCycle (getPowerCycle p r k)).length := by
      rw [invCycle_length, hCl]
      exact hik2
    unfold interpolateRoots
    rw [getD_map_of_lt _ _ i hlic, invCycle_powerCycle_getD p r k i hp2 hr1 hik2, hCl]
    apply natCast_inj_of_lt (Nat.mod_lt _ hp0)
      (getD_lt_of_all p hp0 poly i hcanon)
    rw [mod_cast_zmod]
    push_cast
    rw [evalPolyAt_cast_sum, hysl]
    have hxc : (((r ^ (k - i) % p : ℕ)) : ZMod p) = ((r : ℕ) : ZMod p) ^ (k - i) := by
      rw [mod_cast_zmod]
      push_cast
      rfl
    rw [hxc]
    have hstep1 : ∀ j ∈ Finset.range k,
        (((evalPolyAtRoots p poly (getPowerCycle p r k)).getD j 0 : ℕ) : ZMod p) *
            (((r : ℕ) : ZMod p) ^ (k - i)) ^ j
          = ∑ m ∈ Finset.range k,
              ((poly.getD m 0 : ℕ) : ZMod p) * (((r : ℕ) : ZMod p) ^ (m + (k - i))) ^ j := by
      intro j hj
      rw [hys j (Finset.mem_range.mp hj), evalPolyAt_cast_sum, hlen]
      have hjc : (((r ^ j % p : ℕ)) : ZMod p) = ((r : ℕ) : ZMod p) ^ j := by
        rw [mod_cast_zmod]
        push_cast
        rfl
      rw [hjc, Finset.sum_mul]
      apply Finset.sum_congr rfl
      intro m _
      have hpw : ∀ a : ZMod p, (a ^ j) ^ m * (a ^ (k - i)) ^ j = (a ^ (m + (k - i))) ^ j := by
        intro a
        rw [← pow_mul a j m, ← pow_mul a (k - i) j, ← pow_add, ← pow_mul a (m + (k - i)) j]
        congr 1
        ring
      rw [mul_assoc, hpw]
    rw [Finset.sum_congr rfl hstep1, Finset.sum_comm]
    have hstep2 : ∀ m ∈ Finset.range k,
        (∑ j ∈ Finset.range k,
            ((poly.getD m 0 : ℕ) : ZMod p) * (((r : ℕ) : ZMod p) ^ (m + (k - i))) ^ j)
          = (if m = i then ((poly.getD m 0 : ℕ) : ZMod p) * (k : ZMod p) else 0) := by
      intro m hm
      have hmk := Finset.mem_range.mp hm
      rw [← Finset.mul_sum]
      by_cases hmi : m = i
      · rw [if_pos hmi]
        subst hmi
        have hd : m + (k - m) = k := by omega
        rw [hd, hgeomK]
      · rw [if_neg hmi]
        rw [hgeom0 (m + (k - i)) (by omega) (by omega) (by omega)]
        rw [mul_zero]
    rw [Finset.sum_congr rfl hstep2, Finset.sum_ite_eq' (Finset.range k)]
    rw [if_pos (Finset.mem_range.mpr hik2)]
    rw [hikc, mul_assoc, mul_inv_cancel₀ hkz, mul_one]

-- ## Lagrange interpolation

/-- Modelled from the spec: the linear factor `x - c` as a coefficient list. -/
def linearFactor (p c : ℕ) : List ℕ := [fmod p (-(c : ℤ)), 1 % p]

/-- Modelled from the spec: the product polynomial of the linear factors
`(x - c)` over the nodes `cs`. -/
def productLinear (p : ℕ) (cs : List ℕ) : List ℕ :=
  cs.foldr (fun c acc => mulPolys p acc (linearFactor p c)) [1 % p]

/-- Modelled from the spec: the `i`-th Lagrange basis term: the product of the
linear factors over the other nodes, scaled by `ys[i]` times the modular
inverse of that product evaluated at `xs[i]`. -/
def lagrangeTerm (p : ℕ) (xs ys : List ℕ) (i : ℕ) : List ℕ :=
  let others := ((List.range xs.length).filter (fun j => j != i)).map (fun j => xs.getD j 0)
  let numer := productLinear p others
  mulPolyByConstant p numer
    (ys.getD i 0 * invVal p (evalPolyAt p numer (xs.getD i 0)) % p)

/-- Modelled from the spec: detection of repeated x-coordinates. -/
def hasDupMod (p : ℕ) : List ℕ → Bool
  | [] => false
  | x :: t => t.any (fun y => x % p == y % p) || hasDupMod p t

/-- Modelled from the spec: `interpolate(xs, ys)` is general Lagrange
interpolation over arbitrary pairwise-distinct x-coordinates; repeated
x-coordinates fail with `DuplicateXCoordinate`. -/
def interpolate (p : ℕ) (xs ys : List ℕ) : Except GErr (List ℕ) :=
  if hasDupMod p xs then .error .DuplicateXCoordinate
  else .ok (((List.range xs.length).map (lagrangeTerm p xs ys)).foldr (addPolys p) [])

theorem addPolys_length (p : ℕ) (u v : List ℕ) :
    (addPolys p u v).length = max u.length v.length := by
  induction u generalizing v with
  | nil => simp [addPolys]
  | cons x u ih =>
    cases v with
    | nil =>
      show ((x % p) :: addPolys p u []).length = _
      rw [List.length_cons, ih]
      simp
    | cons y v =>
      show (((x + y) % p) :: addPolys p u v).length = _
      rw [List.length_cons, ih]
      simp only [List.length_cons]
      omega

theorem mulPolys_length (p : ℕ) (a b : List ℕ) (ha : a ≠ []) (hb : b ≠ []) :
    (mulPolys p a b).length = a.length + b.length - 1 := by
  have hb1 : 1 ≤ b.length := List.length_pos.mpr hb
  induction a with
  | nil => exact absurd rfl ha
  | cons c a ih =>
    by_cases ha2 : a = []
    · subst ha2
      show (addPolys p (b.map _) (0 :: mulPolys p [] b)).length = _
      rw [addPolys_length]
      show max (b.map _).length (0 :: ([] : List ℕ)).length = _
      simp only [List.length_map, List.length_cons, List.length_nil]
      omega
    · show (addPolys p (b.map _) (0 :: mulPolys p a b)).length = _
      rw [addPolys_length]
      simp only [List.length_map, List.length_cons, ih ha2]
      have ha1 : 1 ≤ a.length := List.length_pos.mpr ha2
      omega

theorem productLinear_ne_nil (p : ℕ) (cs : List ℕ) : productLinear p cs ≠ [] := by
  induction cs with
  | nil => simp [productLinear]
  | cons c cs ih =>
    show mulPolys p (productLinear p cs) (linearFactor p c) ≠ []
    intro h
    have := mulPolys_length p (productLinear p cs) (linearFactor p c) ih (by simp [linearFactor])
    rw [h] at this
    simp only [List.length_nil, linearFactor, List.length_cons, List.length_nil] at this
    have := List.length_pos.mpr ih
    omega

theorem productLinear_length (p : ℕ) (cs : List ℕ) :
    (productLinear p cs).length = cs.length + 1 := by
  induction cs with
  | nil => rfl
  | cons c cs ih =>
    show (mulPolys p (productLinear p cs) (linearFactor p c)).length = _
    rw [mulPolys_length p _ _ (productLinear_ne_nil p cs) (by simp [linearFactor]), ih]
    simp [linearFactor]

theorem filter_ne_length (n i : ℕ) (h : i < n) :
    ((List.range n).filter (fun j => j != i)).length = n - 1 := by
  induction n with
  | zero => omega
  | succ n ih =>
    rw [List.range_succ, List.filter_append]
    rw [List.length_append]
    by_cases hni : i = n
    · subst hni
      have h1 : (List.range i).filter (fun j => j != i) = List.range i := by
        apply List.filter_eq_self.mpr
        intro a ha
        have := List.mem_range.mp ha
        simp only [bne_iff_ne, ne_eq, decide_eq_true_eq]
        omega
      rw [h1]
      simp
    · have hin : i < n := by omega
      rw [ih hin]
      have h2 : (List.filter (fun j => j != i) [n]).length = 1 := by
        simp only [List.filter, bne_iff_ne, ne_eq]
        have : (n != i) = true := by
          simp only [bne_iff_ne, ne_eq]
          omega
        rw [this]
        rfl
      rw [h2]
      omega

theorem foldr_addPolys_all_lt (p : ℕ) (hp : 0 < p) (ts : List (List ℕ)) :
    ∀ c ∈ ts.foldr (addPolys p) [], c < p := by
  cases ts with
  | nil => intro c hc; simp at hc
  | cons t ts => exact addPolys_all_lt p hp _ _

theorem foldr_addPolys_length (p n : ℕ) (ts : List (List ℕ))
    (h : ∀ t ∈ ts, t.length = n) (hne : ts ≠ []) :
    (ts.foldr (addPolys p) []).length = n := by
  induction ts with
  | nil => exact absurd rfl hne
  | cons t ts ih =>
    show (addPolys p t (ts.foldr (addPolys p) [])).length = n
    rw [addPolys_length, h t (List.mem_cons_self t ts)]
    by_cases hts : ts = []
    · subst hts
      simp
    · rw [ih (fun u hu => h u (List.mem_cons_of_mem t hu)) hts]
      simp

theorem listPoly_foldr_addPolys (p : ℕ) (ts : List (List ℕ)) :
    listPoly p (ts.foldr (addPolys p) []) = (ts.map (listPoly p)).sum := by
  induction ts with
  | nil => rfl
  | cons t ts ih =>
    show listPoly p (addPolys p t _) = _
    rw [listPoly_addPolys, ih, List.map_cons, List.sum_cons]

theorem listPoly_mulPolyByConstant (p : ℕ) (b : List ℕ) (c : ℕ) :
    listPoly p (mulPolyByConstant p b c) =
      Polynomial.C ((c : ℕ) : ZMod p) * listPoly p b := by
  induction b with
  | nil => simp [mulPolyByConstant, listPoly]
  | cons d t ih =>
    show listPoly p ((d * c % p) :: _) = _
    rw [listPoly_cons, listPoly_cons]
    show Polynomial.C (((d * c % p : ℕ)) : ZMod p) + Polynomial.X * listPoly p (mulPolyByConstant p t c) = _
    rw [ih, mod_cast_zmod]
    push_cast
    rw [map_mul]
    ring

theorem listPoly_linearFactor (p : ℕ) (hp : 0 < p) (c : ℕ) :
    listPoly p (linearFactor p c) =
      Polynomial.X - Polynomial.C ((c : ℕ) : ZMod p) := by
  unfold linearFactor
  rw [listPoly_cons, listPoly_cons, listPoly_nil]
  rw [fmod_cast p hp, mod_cast_zmod]
  push_cast
  rw [map_neg, map_one]
  ring

theorem listPoly_productLinear (p : ℕ) (hp : 0 < p) (cs : List ℕ) :
    listPoly p (productLinear p cs) =
      (cs.map (fun c => Polynomial.X - Polynomial.C ((c : ℕ) : ZMod p))).prod := by
  induction cs with
  | nil =>
    show listPoly p [1 % p] = 1
    rw [listPoly_cons, listPoly_nil, mod_cast_zmod]
    simp
  | cons c cs ih =>
    show listPoly p (mulPolys p (productLinear p cs) (linearFactor p c)) = _
    rw [listPoly_mulPolys, ih, listPoly_linearFactor p hp, List.map_cons, List.prod_cons]
    ring

theorem list_range_map_sum (p n : ℕ) (g : ℕ → Polynomial (ZMod p)) :
    (((List.range n).map g)).sum = ∑ j ∈ Finset.range n, g j := by
  induction n with
  | zero => rfl
  | succ n ih =>
    rw [List.range_succ, List.map_append, List.sum_append, Finset.sum_range_succ, ih]
    simp

theorem list_filter_map_prod (p n i : ℕ) (g : ℕ → Polynomial (ZMod p)) :
    ((((List.range n).filter (fun j => j != i)).map g)).prod =
      ∏ j ∈ (Finset.range n).erase i, g j := by
  induction n with
  | zero => simp
  | succ n ih =>
    rw [List.range_succ, List.filter_append, List.map_append, List.prod_append, ih]
    rw [Finset.range_succ]
    by_cases hni : n = i
    · subst hni
      rw [Finset.erase_insert Finset.not_mem_range_self]
      have hker : (Finset.range n).erase n = Finset.range n :=
        Finset.erase_eq_of_not_mem Finset.not_mem_range_self
      rw [hker]
      have hfe : List.filter (fun j => j != n) [n] = [] := by simp
      rw [hfe]
      simp
    · rw [Finset.erase_insert_of_ne hni]
      rw [Finset.prod_insert (fun hmem => Finset.not_mem_range_self (Finset.mem_of_mem_erase hmem))]
      have hfe : List.filter (fun j => j != i) [n] = [n] := by
        simp only [List.filter, bne_iff_ne, ne_eq]
        have hb : (n != i) = true := by
          simp only [bne_iff_ne, ne_eq]
          omega
        rw [hb]
      rw [hfe]
      simp [mul_comm]

theorem hasDupMod_iff (p : ℕ) (xs : List ℕ) (hxs : ∀ c ∈ xs, c < p) :
    hasDupMod p xs = true ↔ ¬ xs.Nodup := by
  induction xs with
  | nil => simp [hasDupMod]
  | cons x t ih =>
    have hx : x % p = x := Nat.mod_eq_of_lt (hxs x (List.mem_cons_self x t))
    have hrec := ih (fun c hc => hxs c (List.mem_cons_of_mem x hc))
    show (t.any (fun y => x % p == y % p) || hasDupMod p t) = true ↔ _
    rw [Bool.or_eq_true, List.nodup_cons]
    constructor
    · rintro (hany | hdup)
      · rcases List.any_eq_true.mp hany with ⟨y, hy, hxy⟩
        have hyy : y % p = y := Nat.mod_eq_of_lt (hxs y (List.mem_cons_of_mem x hy))
        rw [hx, hyy, beq_iff_eq] at hxy
        subst hxy
        intro hcon
        exact hcon.1 hy
      · intro hcon
        exact hrec.mp hdup hcon.2
    · intro hnot
      by_cases hxin : x ∈ t
      · left
        apply List.any_eq_true.mpr
        refine ⟨x, hxin, ?_⟩
        simp
      · right
        apply hrec.mpr
        intro hnd
        exact hnot ⟨hxin, hnd⟩

theorem listPoly_degree_lt (p : ℕ) (l : List ℕ) :
    (listPoly p l).degree < ((l.length : ℕ) : WithBot ℕ) := by
  induction l with
  | nil =>
    show (0 : Polynomial (ZMod p)).degree < _
    rw [Polynomial.degree_zero]
    exact WithBot.bot_lt_coe _
  | cons c t ih =>
    rw [listPoly_cons]
    apply lt_of_le_of_lt (Polynomial.degree_add_le _ _)
    rw [max_lt_iff]
    constructor
    · apply lt_of_le_of_lt Polynomial.degree_C_le
      exact_mod_cast Nat.succ_pos t.length
    · apply lt_of_le_of_lt (Polynomial.degree_mul_le _ _)
      calc Polynomial.X.degree + (listPoly p t).degree
          ≤ 1 + (listPoly p t).degree := add_le_add_right Polynomial.degree_X_le _
        _ < 1 + ((t.length : ℕ) : WithBot ℕ) := WithBot.add_lt_add_left (by simp) ih
        _ = (((t.length + 1 : ℕ)) : WithBot ℕ) := by
            push_cast
            ring

theorem listPoly_inj (p : ℕ) (hp : 0 < p) (u v : List ℕ) (hlen : u.length = v.length)
    (hu : ∀ c ∈ u, c < p) (hv : ∀ c ∈ v, c < p)
    (h : listPoly p u = listPoly p v) : u = v := by
  apply List.ext_getElem hlen
  intro i h1 h2
  apply natCast_inj_of_lt (hu _ (List.getElem_mem h1)) (hv _ (List.getElem_mem h2))
  have hcoeff := congrArg (fun q => Polynomial.coeff q i) h
  simp only [listPoly_coeff] at hcoeff
  rwa [getD_eq_getElem_of_lt u i h1, getD_eq_getElem_of_lt v i h2] at hcoeff

theorem lagrangeNumer_listPoly (p : ℕ) (hp : 0 < p) (xs : List ℕ) (i : ℕ) :
    listPoly p (productLinear p
        (((List.range xs.length).filter (fun j => j != i)).map (fun j => xs.getD j 0)))
      = ∏ j ∈ (Finset.range xs.length).erase i,
          (Polynomial.X - Polynomial.C ((xs.getD j 0 : ℕ) : ZMod p)) := by
  rw [listPoly_productLinear p hp, List.map_map]
  exact list_filter_map_prod p xs.length i _

theorem lagrangeNumer_eval (p : ℕ) (hp : 0 < p) (xs : List ℕ) (i : ℕ) (x : ZMod p) :
    (listPoly p (productLinear p
        (((List.range xs.length).filter (fun j => j != i)).map (fun j => xs.getD j 0)))).eval x
      = ∏ j ∈ (Finset.range xs.length).erase i, (x - ((xs.getD j 0 : ℕ) : ZMod p)) := by
  rw [lagrangeNumer_listPoly p hp, Polynomial.eval_prod]
  apply Finset.prod_congr rfl
  intro j _
  simp

/-- C8: `interpolate` applied to the evaluations of a known polynomial of
degree below the node count at pairwise-distinct nodes reproduces that
polynomial exactly; repeated x-coordinates fail with
`DuplicateXCoordinate`. -/
theorem interpolate_spec (p : ℕ) (xs ys q : List ℕ) (hp : p.Prime)
    (hlen : q.length = xs.length)
    (hq : ∀ c ∈ q, c < p) (hxs : ∀ c ∈ xs, c < p) :
    (¬ xs.Nodup → interpolate p xs ys = .error .DuplicateXCoordinate)
    ∧ (xs.Nodup → interpolate p xs (xs.map (evalPolyAt p q)) = .ok q) := by
  haveI : Fact p.Prime := ⟨hp⟩
  have hp0 : 0 < p := hp.pos
  constructor
  · intro hnd
    unfold interpolate
    rw [if_pos ((hasDupMod_iff p xs hxs).mpr hnd)]
  · intro hnd
    unfold interpolate
    rw [if_neg (fun hdup => ((hasDupMod_iff p xs hxs).mp hdup) hnd)]
    congr 1
    by_cases hn0 : xs.length = 0
    · rw [hn0]
      have hxnil : q = [] := List.length_eq_zero.mp (by omega)
      subst hxnil
      rfl
    · -- nontrivial node count
      have hn1 : 1 ≤ xs.length := by omega
      have hvinj : Set.InjOn (fun j => ((xs.getD j 0 : ℕ) : ZMod p))
          ↑(Finset.range xs.length) := by
        intro a ha b hb hab
        have han : a < xs.length := Finset.mem_range.mp (Finset.mem_coe.mp ha)
        have hbn : b < xs.length := Finset.mem_range.mp (Finset.mem_coe.mp hb)
        simp only at hab
        rw [getD_eq_getElem_of_lt xs a han, getD_eq_getElem_of_lt xs b hbn] at hab
        have := natCast_inj_of_lt (hxs _ (List.getElem_mem han))
          (hxs _ (List.getElem_mem hbn)) hab
        exact (List.Nodup.getElem_inj_iff hnd).mp this
      have hvne : ∀ i ∈ Finset.range xs.length, ∀ j ∈ (Finset.range xs.length).erase i,
          ((xs.getD i 0 : ℕ) : ZMod p) - ((xs.getD j 0 : ℕ) : ZMod p) ≠ 0 := by
        intro i hi j hj
        rw [sub_ne_zero]
        intro hcon
        have hji := (Finset.mem_erase.mp hj).1
        exact hji (hvinj (Finset.mem_coe.mpr (Finset.mem_erase.mp hj).2)
          (Finset.mem_coe.mpr hi) hcon.symm)
      have hDcast : ∀ i, (((evalPolyAt p (productLinear p
            (((List.range xs.length).filter (fun j => j != i)).map (fun j => xs.getD j 0)))
            (xs.getD i 0) : ℕ)) : ZMod p)
          = ∏ j ∈ (Finset.range xs.length).erase i,
              (((xs.getD i 0 : ℕ) : ZMod p) - ((xs.getD j 0 : ℕ) : ZMod p)) := by
        intro i
        rw [evalPolyAt_cast p hp0, lagrangeNumer_eval p hp0]
      have hDne : ∀ i ∈ Finset.range xs.length,
          (evalPolyAt p (productLinear p
            (((List.range xs.length).filter (fun j => j != i)).map (fun j => xs.getD j 0)))
            (xs.getD i 0)) % p ≠ 0 := by
        intro i hi hcon
        have hlt := evalPolyAt_lt p hp0 (productLinear p
          (((List.range xs.length).filter (fun j => j != i)).map (fun j => xs.getD j 0)))
          (xs.getD i 0)
        rw [Nat.mod_eq_of_lt hlt] at hcon
        have hz := hDcast i
        rw [hcon] at hz
        simp only [Nat.cast_zero] at hz
        exact (Finset.prod_ne_zero_iff.mpr (fun j hj => hvne i hi j hj)) hz.symm
      have hterm : ∀ i ∈ Finset.range xs.length,
          listPoly p (lagrangeTerm p xs (xs.map (evalPolyAt p q)) i)
            = Polynomial.C ((((xs.map (evalPolyAt p q)).getD i 0 : ℕ) : ZMod p) *
                ((((evalPolyAt p (productLinear p
                  (((List.range xs.length).filter (fun j => j != i)).map
                    (fun j => xs.getD j 0))) (xs.getD i 0) : ℕ)) : ZMod p))⁻¹) *
              listPoly p (productLinear p
                (((List.range xs.length).filter (fun j => j != i)).map
                  (fun j => xs.getD j 0))) := by
        intro i hi
        show listPoly p (mulPolyByConstant p _ _) = _
        rw [listPoly_mulPolyByConstant]
        congr 1
        rw [mod_cast_zmod]
        push_cast
        rw [invVal_cast_eq_inv p _ hp (hDne i hi)]
      have hfold : listPoly p (((List.range xs.length).map
            (lagrangeTerm p xs (xs.map (evalPolyAt p q)))).foldr (addPolys p) [])
          = ∑ i ∈ Finset.range xs.length,
              listPoly p (lagrangeTerm p xs (xs.map (evalPolyAt p q)) i) := by
        rw [listPoly_foldr_addPolys, List.map_map]
        exact list_range_map_sum p xs.length _
      have hReval : ∀ m ∈ Finset.range xs.length,
          (listPoly p (((List.range xs.length).map
            (lagrangeTerm p xs (xs.map (evalPolyAt p q)))).foldr (addPolys p) [])).eval
              ((xs.getD m 0 : ℕ) : ZMod p)
            = (((xs.map (evalPolyAt p q)).getD m 0 : ℕ) : ZMod p) := by
        intro m hm
        rw [hfold, Polynomial.eval_finset_sum]
        rw [Finset.sum_eq_single_of_mem m hm]
        · rw [hterm m hm, Polynomial.eval_mul, Polynomial.eval_C, lagrangeNumer_eval p hp0]
          rw [← hDcast m]
          rw [mul_assoc, inv_mul_cancel₀ (cast_ne_zero_of_mod p _ hp0 (hDne m hm)), mul_one]
        · intro i hi hne
          rw [hterm i hi, Polynomial.eval_mul, lagrangeNumer_eval p hp0]
          have hz : ∏ j ∈ (Finset.range xs.length).erase i,
              (((xs.getD m 0 : ℕ) : ZMod p) - ((xs.getD j 0 : ℕ) : ZMod p)) = 0 :=
            Finset.prod_eq_zero (Finset.mem_erase.mpr ⟨Ne.symm hne, hm⟩)
              (sub_self (((xs.getD m 0 : ℕ) : ZMod p)))
          rw [hz, mul_zero]
      have hqeval : ∀ m ∈ Finset.range xs.length,
          (listPoly p q).eval ((xs.getD m 0 : ℕ) : ZMod p)
            = (((xs.map (evalPolyAt p q)).getD m 0 : ℕ) : ZMod p) := by
        intro m hm
        have hmn := Finset.mem_range.mp hm
        rw [getD_map_of_lt _ xs m hmn]
        rw [evalPolyAt_cast p hp0]
      have htlen : ∀ t ∈ (List.range xs.length).map
          (lagrangeTerm p xs (xs.map (evalPolyAt p q))), t.length = xs.length := by
        intro t ht
        rcases List.mem_map.mp ht with ⟨i, hi, rfl⟩
        have hin := List.mem_range.mp hi
        show (mulPolyByConstant p _ _).length = _
        unfold mulPolyByConstant
        rw [List.length_map, productLinear_length, List.length_map, filter_ne_length _ _ hin]
        omega
      have hRlen : (((List.range xs.length).map
            (lagrangeTerm p xs (xs.map (evalPolyAt p q)))).foldr (addPolys p) []).length
          = xs.length := by
        apply foldr_addPolys_length p xs.length _ htlen
        intro hcon
        have h0 : ((List.range xs.length).map
            (lagrangeTerm p xs (xs.map (evalPolyAt p q)))).length = 0 := by
          rw [hcon]
          rfl
        rw [List.length_map, List.length_range] at h0
        omega
      have hdegR : (listPoly p (((List.range xs.length).map
            (lagrangeTerm p xs (xs.map (evalPolyAt p q)))).foldr (addPolys p) [])).degree
          < ((Finset.range xs.length).card : WithBot ℕ) := by
        rw [Finset.card_range]
        have := listPoly_degree_lt p (((List.range xs.length).map
          (lagrangeTerm p xs (xs.map (evalPolyAt p q)))).foldr (addPolys p) [])
        rwa [hRlen] at this
      have hdegq : (listPoly p q).degree < ((Finset.range xs.length).card : WithBot ℕ) := by
        rw [Finset.card_range]
        have := listPoly_degree_lt p q
        rwa [hlen] at this
      have hpolyeq := Polynomial.eq_of_degrees_lt_of_eval_index_eq (Finset.range xs.length)
        hvinj hdegR hdegq
        (fun i hi => by rw [hReval i hi, hqeval i hi])
      apply listPoly_inj p hp0 _ _ (by rw [hRlen, hlen]) _ hq hpolyeq
      exact foldr_addPolys_all_lt p hp0 _

-- ## Polynomial long division

/-- Modelled from the spec: the step loop of polynomial long division over
descending-order coefficient lists.  `binv` is the inverse of the divisor's
leading coefficient and `bTail` its remaining descending coefficients; each of
the `k` steps picks the quotient coefficient cancelling the current leading
remainder coefficient, subtracts that multiple of the divisor from the top of
the remainder, and recurses. -/
def divLoop (p binv : ℕ) (bTail : List ℕ) : ℕ → List ℕ → List ℕ × List ℕ
  | 0, rem => ([], rem)
  | k + 1, rem =>
    let qc := rem.headD 0 * binv % p
    let rem2 := List.zipWith (fun (rv bv : ℕ) => fmod p ((rv : ℤ) - ((qc * bv : ℕ) : ℤ)))
      rem.tail (bTail ++ List.replicate k 0)
    let res := divLoop p binv bTail k rem2
    (qc :: res.1, res.2)

/-- Modelled from the spec: `divPolys(a, b)` performs polynomial long
division producing a quotient sequence.  Division by a polynomial with no
invertible leading coefficient fails with `DivisionByZero`; a nonzero final
remainder fails with `NotDivisible` (the spec leaves remainder handling to
the implementation provided the choice is documented: this model enforces
exact division and never returns partial results). -/
def divPolys (p : ℕ) (a b : List ℕ) : Except GErr (List ℕ) :=
  match b.reverse with
  | [] => .error .DivisionByZero
  | lead :: bTail =>
    if lead % p = 0 then .error .DivisionByZero
    else if a.length < b.length then
      (if a.all (fun c => c % p == 0) then .ok [] else .error .NotDivisible)
    else
      let res := divLoop p (invVal p lead) bTail (a.length - b.length + 1) a.reverse
      if res.2.all (fun c => c % p == 0) then .ok res.1.reverse
      else .error .NotDivisible

theorem listPoly_append (p : ℕ) (l m : List ℕ) :
    listPoly p (l ++ m) = listPoly p l + Polynomial.X ^ l.length * listPoly p m := by
  induction l with
  | nil => simp [listPoly_nil]
  | cons c l ih =>
    simp only [List.cons_append, listPoly_cons, ih, List.length_cons]
    rw [pow_succ]
    ring

theorem listPoly_replicate_zero (p k : ℕ) :
    listPoly p (List.replicate k 0) = 0 := by
  induction k with
  | zero => rfl
  | succ k ih =>
    show listPoly p (0 :: List.replicate k 0) = 0
    rw [listPoly_cons, ih]
    simp

theorem listPoly_eq_zero_of_all_zero (p : ℕ) (l : List ℕ)
    (h : ∀ c ∈ l, c % p = 0) : listPoly p l = 0 := by
  induction l with
  | nil => rfl
  | cons c t ih =>
    rw [listPoly_cons, ih (fun d hd => h d (List.mem_cons_of_mem c hd))]
    have hc : ((c : ℕ) : ZMod p) = 0 := by
      rw [← mod_cast_zmod, h c (List.mem_cons_self c t)]
      simp
    rw [hc]
    simp

theorem zipWith_reverse_comm (f : ℕ → ℕ → ℕ) (u v : List ℕ) (h : u.length = v.length) :
    (List.zipWith f u v).reverse = List.zipWith f u.reverse v.reverse := by
  induction u generalizing v with
  | nil => cases v <;> simp
  | cons x u ih =>
    cases v with
    | nil => simp at h
    | cons y v =>
      have h2 : u.length = v.length := by simpa using h
      simp only [List.zipWith_cons_cons, List.reverse_cons]
      rw [ih v h2]
      rw [List.zipWith_append _ _ _ _ _ (by simp [h2])]
      rfl

theorem listPoly_zipWith_sub (p : ℕ) (hp : 0 < p) (c : ℕ) (u v : List ℕ)
    (h : u.length = v.length) :
    listPoly p (List.zipWith (fun (rv bv : ℕ) => fmod p ((rv : ℤ) - ((c * bv : ℕ) : ℤ))) u v)
      = listPoly p u - Polynomial.C ((c : ℕ) : ZMod p) * listPoly p v := by
  induction u generalizing v with
  | nil =>
    cases v with
    | nil => simp [listPoly_nil]
    | cons y v => simp at h
  | cons x u ih =>
    cases v with
    | nil => simp at h
    | cons y v =>
      have h2 : u.length = v.length := by simpa using h
      simp only [List.zipWith_cons_cons, listPoly_cons]
      rw [ih v h2, fmod_cast p hp]
      push_cast
      rw [map_sub, map_mul]
      ring

theorem divLoop_spec (p : ℕ) (hp0 : 0 < p) (binv lead : ℕ) (bTail : List ℕ)
    (hbl : ((binv : ℕ) : ZMod p) * ((lead : ℕ) : ZMod p) = 1) :
    ∀ k rem, rem.length = bTail.length + k →
      (divLoop p binv bTail k rem).1.length = k ∧
      (∀ c ∈ (divLoop p binv bTail k rem).1, c < p) ∧
      listPoly p rem.reverse =
        listPoly p (bTail.reverse ++ [lead]) *
            listPoly p (divLoop p binv bTail k rem).1.reverse
          + listPoly p (divLoop p binv bTail k rem).2.reverse := by
  intro k
  induction k with
  | zero =>
    intro rem hlen
    refine ⟨rfl, by simp [divLoop], ?_⟩
    show listPoly p rem.reverse = _ * listPoly p (([] : List ℕ)).reverse + listPoly p rem.reverse
    rw [List.reverse_nil, listPoly_nil]
    ring
  | succ k ih =>
    intro rem hlen
    cases rem with
    | nil =>
      rw [List.length_nil] at hlen
      omega
    | cons x t =>
      have hlt : t.length = bTail.length + k := by
        rw [List.length_cons] at hlen
        omega
      have hpadlen : (bTail ++ List.replicate k 0).length = bTail.length + k := by simp
      have hstep : divLoop p binv bTail (k + 1) (x :: t) =
          ((x * binv % p) ::
            (divLoop p binv bTail k
              (List.zipWith (fun (rv bv : ℕ) => fmod p ((rv : ℤ) - (((x * binv % p) * bv : ℕ) : ℤ)))
                t (bTail ++ List.replicate k 0))).1,
            (divLoop p binv bTail k
              (List.zipWith (fun (rv bv : ℕ) => fmod p ((rv : ℤ) - (((x * binv % p) * bv : ℕ) : ℤ)))
                t (bTail ++ List.replicate k 0))).2) := rfl
      have hrem2len : (List.zipWith
            (fun (rv bv : ℕ) => fmod p ((rv : ℤ) - (((x * binv % p) * bv : ℕ) : ℤ)))
            t (bTail ++ List.replicate k 0)).length = bTail.length + k := by
        rw [List.length_zipWith, hlt, hpadlen]
        simp
      obtain ⟨ihlen, ihbound, iheq⟩ := ih _ hrem2len
      rw [hstep]
      refine ⟨by rw [List.length_cons, ihlen], ?_, ?_⟩
      · intro c hc
        rcases List.mem_cons.mp hc with rfl | hc
        · exact Nat.mod_lt _ hp0
        · exact ihbound c hc
      · have hB : listPoly p (bTail.reverse ++ [lead]) =
            listPoly p bTail.reverse +
              Polynomial.X ^ bTail.length * Polynomial.C ((lead : ℕ) : ZMod p) := by
          rw [listPoly_append, List.length_reverse, listPoly_cons, listPoly_nil]
          ring
        have hLHS : listPoly p ((x :: t).reverse) =
            listPoly p t.reverse +
              Polynomial.X ^ (bTail.length + k) * Polynomial.C ((x : ℕ) : ZMod p) := by
          rw [List.reverse_cons, listPoly_append, List.length_reverse, hlt]
          rw [listPoly_cons, listPoly_nil]
          ring
        have hQ : listPoly p (((x * binv % p) ::
              (divLoop p binv bTail k
                (List.zipWith (fun (rv bv : ℕ) => fmod p ((rv : ℤ) - (((x * binv % p) * bv : ℕ) : ℤ)))
                  t (bTail ++ List.replicate k 0))).1).reverse) =
            listPoly p ((divLoop p binv bTail k
                (List.zipWith (fun (rv bv : ℕ) => fmod p ((rv : ℤ) - (((x * binv % p) * bv : ℕ) : ℤ)))
                  t (bTail ++ List.replicate k 0))).1).reverse +
              Polynomial.X ^ k * Polynomial.C (((x * binv % p : ℕ)) : ZMod p) := by
          rw [List.reverse_cons, listPoly_append, List.length_reverse, ihlen]
          rw [listPoly_cons, listPoly_nil]
          ring
        have hrem2 : listPoly p ((List.zipWith
              (fun (rv bv : ℕ) => fmod p ((rv : ℤ) - (((x * binv % p) * bv : ℕ) : ℤ)))
              t (bTail ++ List.replicate k 0)).reverse) =
            listPoly p t.reverse -
              Polynomial.C (((x * binv % p : ℕ)) : ZMod p) *
                (Polynomial.X ^ k * listPoly p bTail.reverse) := by
          rw [zipWith_reverse_comm _ _ _ (by rw [hlt, hpadlen])]
          rw [listPoly_zipWith_sub p hp0 _ _ _ (by simp [hlt]; omega)]
          rw [List.reverse_append, List.reverse_replicate, listPoly_append,
            listPoly_replicate_zero, List.length_replicate]
          ring
        have hCq : Polynomial.C ((lead : ℕ) : ZMod p) *
              Polynomial.C (((x * binv % p : ℕ)) : ZMod p) =
            Polynomial.C ((x : ℕ) : ZMod p) := by
          rw [← map_mul]
          congr 1
          rw [mod_cast_zmod]
          push_cast
          have hr : ((lead : ℕ) : ZMod p) * (((x : ℕ) : ZMod p) * ((binv : ℕ) : ZMod p)) =
              ((x : ℕ) : ZMod p) * (((binv : ℕ) : ZMod p) * ((lead : ℕ) : ZMod p)) := by
            ring
          rw [hr, hbl, mul_one]
        rw [hrem2, hB] at iheq
        rw [hLHS, hQ, hB]
        linear_combination iheq - (Polynomial.X : Polynomial (ZMod p)) ^ (bTail.length + k) * hCq

/-- Success/failure predicate for `divPolys`: any returned quotient is exact
(the dividend's polynomial equals divisor times quotient over `ZMod p`), and
the only error surfaced for a divisor with invertible leading coefficient is
`NotDivisible`. -/
def divPolysSpec (p : ℕ) (a b : List ℕ) : Except GErr (List ℕ) → Prop
  | .ok q => listPoly p a = listPoly p b * listPoly p q
  | .error e => e = .NotDivisible

/-- C4: `divPolys(a, b)` performs polynomial long division producing a
quotient (exactness witnessed over `ZMod p`), and failing with `NotDivisible`
when exact division is impossible: it is not the coefficient-wise division of
the declaration's misleading doc comment, and it returns no partial results. -/
theorem divPolys_long_division (p : ℕ) (a b : List ℕ) (hp : p.Prime)
    (hb : b.reverse.headD 0 % p ≠ 0) :
    divPolysSpec p a b (divPolys p a b) := by
  cases hrev : b.reverse with
  | nil =>
    rw [hrev] at hb
    simp at hb
  | cons lead bTail =>
    have hlead : lead % p ≠ 0 := by
      rw [hrev] at hb
      simpa using hb
    have hbform : b = bTail.reverse ++ [lead] := by
      have := congrArg List.reverse hrev
      rw [List.reverse_reverse] at this
      rw [this, List.reverse_cons]
    unfold divPolys
    rw [hrev]
    show divPolysSpec p a b
      (if lead % p = 0 then Except.error GErr.DivisionByZero
       else if a.length < b.length then
         (if (a.all fun c => c % p == 0) = true then Except.ok []
          else Except.error GErr.NotDivisible)
       else
         if ((divLoop p (invVal p lead) bTail (a.length - b.length + 1) a.reverse).2.all
             fun c => c % p == 0) = true then
           Except.ok (divLoop p (invVal p lead) bTail (a.length - b.length + 1) a.reverse).1.reverse
         else Except.error GErr.NotDivisible)
    rw [if_neg hlead]
    by_cases hshort : a.length < b.length
    · rw [if_pos hshort]
      by_cases hzero : a.all (fun c => c % p == 0)
      · rw [if_pos hzero]
        show listPoly p a = listPoly p b * listPoly p []
        rw [listPoly_nil, mul_zero]
        apply listPoly_eq_zero_of_all_zero
        intro c hc
        have := List.all_eq_true.mp hzero c hc
        exact Nat.beq_eq_true_eq _ _ |>.mp this
      · rw [if_neg hzero]
        rfl
    · rw [if_neg hshort]
      have hbl := invVal_mul_cast p lead hp hlead
      have hblen : b.length = bTail.length + 1 := by
        rw [← List.length_reverse b, hrev, List.length_cons]
      have hreml : a.reverse.length = bTail.length + (a.length - b.length + 1) := by
        rw [List.length_reverse]
        omega
      obtain ⟨hqlen, hqbound, heq⟩ :=
        divLoop_spec p hp.pos (invVal p lead) lead bTail hbl
          (a.length - b.length + 1) a.reverse hreml
      rw [List.reverse_reverse, ← hbform] at heq
      by_cases hrem : (divLoop p (invVal p lead) bTail (a.length - b.length + 1) a.reverse).2.all
          (fun c => c % p == 0)
      · rw [if_pos hrem]
        show listPoly p a = listPoly p b * listPoly p _
        have hr0 : listPoly p ((divLoop p (invVal p lead) bTail
            (a.length - b.length + 1) a.reverse).2.reverse) = 0 := by
          apply listPoly_eq_zero_of_all_zero
          intro c hc
          have hcm := List.mem_reverse.mp hc
          exact Nat.beq_eq_true_eq _ _ |>.mp (List.all_eq_true.mp hrem c hcm)
        rw [hr0, add_zero] at heq
        exact heq
      · rw [if_neg hrem]
        rfl

-- ## Batch operations

/-- Modelled from the spec: iterative power series: each term is the previous
term multiplied by the base, reduced mod `p`. -/
def powerSeriesAux (p base : ℕ) : ℕ → ℕ → List ℕ
  | 0, _ => []
  | n + 1, cur => cur :: powerSeriesAux p base n (cur * base % p)

/-- Modelled from the spec: `getPowerSeries(base, length)` returns
`[base^0, ..., base^(length-1)]` computed iteratively. -/
def getPowerSeries (p base length : ℕ) : List ℕ :=
  powerSeriesAux p base length (1 % p)

/-- Modelled from the spec: `combine(values, coefficients)` is the dot product
mod `p`; mismatched lengths fail with `DimensionMismatch`. -/
def combine (p : ℕ) (values coefficients : List ℕ) : Except GErr ℕ :=
  if values.length = coefficients.length then
    .ok ((List.zipWith (fun a b => a * b) values coefficients).foldl
      (fun acc t => (acc + t) % p) 0)
  else .error .DimensionMismatch

/-- Modelled from the spec: `mulMany(values, m1, m2?)` multiplies every entry
of each column by the matching row factor of `m1` and, when supplied, of
`m2`; any row-count mismatch fails with `DimensionMismatch`. -/
def mulMany (p : ℕ) (values : List (List ℕ)) (m1 : List ℕ) (m2 : Option (List ℕ)) :
    Except GErr (List (List ℕ)) :=
  if values.all (fun col => col.length == m1.length)
      && (match m2 with | none => true | some l => l.length == m1.length) then
    .ok (values.map (fun col =>
      List.zipWith (fun v f => v * f % p) col
        (match m2 with
         | none => m1
         | some l => List.zipWith (fun f g => f * g % p) m1 l)))
  else .error .DimensionMismatch

/-- Modelled from the spec: `combineMany(values, coefficients)` applies the
linear combination independently to every row of a column-major matrix. -/
def combineMany (p : ℕ) (values : List (List ℕ)) (coefficients : List ℕ) :
    Except GErr (List ℕ) :=
  if (values.length == coefficients.length)
      && values.all (fun col => col.length == (values.headD []).length) then
    .ok ((List.range (values.headD []).length).map (fun r =>
      (List.zipWith (fun col c => col.getD r 0 * c) values coefficients).foldl
        (fun acc t => (acc + t) % p) 0))
  else .error .DimensionMismatch

/-- Modelled from the spec: `interpolateQuarticBatch(xSets, ySets)`
interpolates many independent 4-point rows in one pass; any row of width
other than 4 fails with `InvalidDegree`. -/
def interpolateQuarticBatch (p : ℕ) (xSets ySets : List (List ℕ)) :
    Except GErr (List (List ℕ)) :=
  if xSets.all (fun row => row.length == 4) && ySets.all (fun row => row.length == 4)
      && (xSets.length == ySets.length) then
    (List.zip xSets ySets).mapM (fun xy => interpolate p xy.1 xy.2)
  else .error .InvalidDegree

-- ## Range predicates

/-- Bounded result of a fallible scalar operation. -/
def okLt (p : ℕ) : Except GErr ℕ → Prop
  | .ok v => v < p
  | .error _ => True

/-- Every entry of a list below the modulus, as a boolean check. -/
def allLt (p : ℕ) (l : List ℕ) : Bool := l.all (fun c => decide (c < p))

/-- Bounded result of a fallible vector operation. -/
def okAllLt (p : ℕ) : Except GErr (List ℕ) → Prop
  | .ok l => allLt p l = true
  | .error _ => True

/-- Bounded result of a fallible matrix operation. -/
def okMatLt (p : ℕ) : Except GErr (List (List ℕ)) → Prop
  | .ok m => (m.all (allLt p)) = true
  | .error _ => True

theorem allLt_iff (p : ℕ) (l : List ℕ) : allLt p l = true ↔ ∀ c ∈ l, c < p := by
  simp [allLt]

theorem foldl_mod_lt (p : ℕ) (hp : 0 < p) (l : List ℕ) :
    ∀ acc, acc < p → (l.foldl (fun acc t => (acc + t) % p) acc) < p := by
  induction l with
  | nil => intro acc h; simpa using h
  | cons t ts ih =>
    intro acc h
    exact ih _ (Nat.mod_lt _ hp)

theorem powerSeriesAux_all_lt (p base : ℕ) (hp : 0 < p) :
    ∀ n cur, cur < p → ∀ c ∈ powerSeriesAux p base n cur, c < p := by
  intro n
  induction n with
  | zero => intro cur _ c hc; simp [powerSeriesAux] at hc
  | succ n ih =>
    intro cur hcur c hc
    rcases List.mem_cons.mp hc with rfl | hc
    · exact hcur
    · exact ih _ (Nat.mod_lt _ hp) c hc

theorem subPolys_all_lt (p : ℕ) (hp : 0 < p) (u v : List ℕ) :
    ∀ c ∈ subPolys p u v, c < p := by
  induction u generalizing v with
  | nil =>
    intro c hc
    simp only [subPolys, List.mem_map] at hc
    rcases hc with ⟨d, _, rfl⟩
    exact fmod_lt p hp _
  | cons x u ih =>
    cases v with
    | nil =>
      intro c hc
      rcases List.mem_cons.mp hc with rfl | hc
      · exact Nat.mod_lt _ hp
      · exact ih [] c hc
    | cons y v =>
      intro c hc
      rcases List.mem_cons.mp hc with rfl | hc
      · exact fmod_lt p hp _
      · exact ih v c hc

theorem divLoop_quot_all_lt (p binv : ℕ) (hp : 0 < p) (bTail : List ℕ) :
    ∀ k rem, ∀ c ∈ (divLoop p binv bTail k rem).1, c < p := by
  intro k
  induction k with
  | zero => intro rem c hc; simp [divLoop] at hc
  | succ k ih =>
    intro rem c hc
    rcases List.mem_cons.mp hc with rfl | hc
    · exact Nat.mod_lt _ hp
    · exact ih _ c hc

theorem interpolate_ok_all_lt (p : ℕ) (hp : 0 < p) (xs ys out : List ℕ)
    (h : interpolate p xs ys = .ok out) : ∀ c ∈ out, c < p := by
  unfold interpolate at h
  by_cases hdup : hasDupMod p xs
  · rw [if_pos hdup] at h
    cases h
  · rw [if_neg hdup] at h
    have := (Except.ok.injEq _ _).mp h
    subst this
    exact foldr_addPolys_all_lt p hp _

theorem divPolys_ok_all_lt (p : ℕ) (hp : 0 < p) (a b out : List ℕ)
    (h : divPolys p a b = .ok out) : ∀ c ∈ out, c < p := by
  unfold divPolys at h
  cases hrev : b.reverse with
  | nil =>
    rw [hrev] at h
    cases h
  | cons lead bTail =>
    rw [hrev] at h
    replace h : (if lead % p = 0 then (Except.error GErr.DivisionByZero : Except GErr (List ℕ))
        else if a.length < b.length then
          (if (a.all fun c => c % p == 0) = true then Except.ok []
           else Except.error GErr.NotDivisible)
        else
          if ((divLoop p (invVal p lead) bTail (a.length - b.length + 1) a.reverse).2.all
              fun c => c % p == 0) = true then
            Except.ok (divLoop p (invVal p lead) bTail (a.length - b.length + 1) a.reverse).1.reverse
          else Except.error GErr.NotDivisible) = Except.ok out := h
    by_cases hl : lead % p = 0
    · rw [if_pos hl] at h
      cases h
    · rw [if_neg hl] at h
      by_cases hshort : a.length < b.length
      · rw [if_pos hshort] at h
        by_cases hz : a.all (fun c => c % p == 0)
        · rw [if_pos hz] at h
          have := (Except.ok.injEq _ _).mp h
          subst this
          intro c hc
          simp at hc
        · rw [if_neg hz] at h
          cases h
      · rw [if_neg hshort] at h
        by_cases hr : (divLoop p (invVal p lead) bTail (a.length - b.length + 1) a.reverse).2.all
            (fun c => c % p == 0)
        · rw [if_pos hr] at h
          have := (Except.ok.injEq _ _).mp h
          subst this
          intro c hc
          exact divLoop_quot_all_lt p _ hp bTail _ _ c (List.mem_reverse.mp hc)
        · rw [if_neg hr] at h
          cases h

theorem invManyBack_all_lt (p : ℕ) (hp : 0 < p) :
    ∀ (l : List ℕ) (t : ℕ), ∀ c ∈ invManyBack p l t, c < p := by
  intro l
  induction l with
  | nil => intro t c hc; simp [invManyBack] at hc
  | cons v rest ih =>
    intro t c hc
    rcases List.mem_cons.mp hc with rfl | hc
    · exact Nat.mod_lt _ hp
    · exact ih _ c hc

theorem quarticBatch_rows_lt (p : ℕ) (hp : 0 < p) :
    ∀ (l : List (List ℕ × List ℕ)) (out : List (List ℕ)),
      l.mapM (fun xy => interpolate p xy.1 xy.2) = .ok out →
      ∀ row ∈ out, ∀ c ∈ row, c < p := by
  intro l
  induction l with
  | nil =>
    intro out h
    rw [List.mapM_nil] at h
    have := (Except.ok.injEq _ _).mp h
    subst this
    intro row hrow
    simp at hrow
  | cons xy rest ih =>
    intro out h
    rw [List.mapM_cons] at h
    cases hI : interpolate p xy.1 xy.2 with
    | error e =>
      rw [hI] at h
      cases h
    | ok r =>
      rw [hI] at h
      cases hM : rest.mapM (fun xy => interpolate p xy.1 xy.2) with
      | error e =>
        rw [hM] at h
        cases h
      | ok t =>
        rw [hM] at h
        have : r :: t = out := (Except.ok.injEq _ _).mp h
        subst this
        intro row hrow
        rcases List.mem_cons.mp hrow with rfl | hrow
        · exact interpolate_ok_all_lt p hp _ _ _ hI
        · exact ih t hM row hrow

theorem zipWith_mulmod_all_lt (p : ℕ) (hp : 0 < p) (l1 l2 : List ℕ) :
    ∀ c ∈ List.zipWith (fun v f => v * f % p) l1 l2, c < p := by
  induction l1 generalizing l2 with
  | nil => intro c hc; simp at hc
  | cons x l1 ih =>
    cases l2 with
    | nil => intro c hc; simp at hc
    | cons y l2 =>
      intro c hc
      rcases List.mem_cons.mp hc with rfl | hc
      · exact Nat.mod_lt _ hp
      · exact ih l2 c hc

/-- C2: every field-element value returned by any modelled operation of the
engine is in the canonical range `[0, p)`: no operation returns a negative
value (results are naturals by construction) or a value at or above the
modulus. -/
theorem all_ops_canonical_range (p : ℕ) (z : ℤ) (hash : ℕ → ℕ → ℕ) (x y : ℕ)
    (u w : List ℕ) (cols xSets ySets : List (List ℕ)) (m2 : Option (List ℕ))
    (hp : 1 < p) :
    add p x y < p ∧ sub p x y < p ∧ mul p x y < p ∧ fmod p z < p ∧
    exp p x y < p ∧ okLt p (inv p x) ∧ okLt p (div p x y) ∧
    okAllLt p (invMany p u) ∧ okLt p (combine p u w) ∧
    okAllLt p (combineMany p cols u) ∧ okMatLt p (mulMany p cols u m2) ∧
    allLt p (getPowerSeries p x y) = true ∧
    allLt p (prng p hash x y) = true ∧
    okLt p (getRootOfUnity p y) ∧
    allLt p (getPowerCycle p x y) = true ∧
    allLt p (addPolys p u w) = true ∧ allLt p (subPolys p u w) = true ∧
    allLt p (mulPolys p u w) = true ∧ okAllLt p (divPolys p u w) ∧
    allLt p (mulPolyByConstant p u x) = true ∧
    evalPolyAt p u x < p ∧
    allLt p (evalPolyAtRoots p u w) = true ∧
    okAllLt p (interpolate p u w) ∧
    allLt p (interpolateRoots p u w) = true ∧
    okMatLt p (interpolateQuarticBatch p xSets ySets) := by
  have hp0 : 0 < p := by omega
  refine ⟨Nat.mod_lt _ hp0, fmod_lt p hp0 _, Nat.mod_lt _ hp0, fmod_lt p hp0 _,
    exp_lt p x y hp0, ?_, ?_, ?_, ?_, ?_, ?_, ?_, ?_, ?_, ?_, ?_, ?_, ?_, ?_, ?_,
    evalPolyAt_lt p hp0 u x, ?_, ?_, ?_, ?_⟩
  · unfold inv
    by_cases h : x % p = 0
    · rw [if_pos h]; trivial
    · rw [if_neg h]
      exact invVal_lt p x hp0
  · unfold div
    by_cases h : y % p = 0
    · rw [if_pos h]; trivial
    · rw [if_neg h]
      exact Nat.mod_lt _ hp0
  · unfold invMany
    cases h : inv p (totalProd p u) with
    | error e => trivial
    | ok t =>
      show allLt p (invManyBack p u t) = true
      exact (allLt_iff p _).mpr (invManyBack_all_lt p hp0 u t)
  · unfold combine
    by_cases h : u.length = w.length
    · rw [if_pos h]
      exact foldl_mod_lt p hp0 _ 0 hp0
    · rw [if_neg h]; trivial
  · unfold combineMany
    by_cases h : ((cols.length == u.length) &&
        cols.all (fun col => col.length == (cols.headD []).length)) = true
    · rw [if_pos h]
      show allLt p _ = true
      apply (allLt_iff p _).mpr
      intro c hc
      rcases List.mem_map.mp hc with ⟨r, _, rfl⟩
      exact foldl_mod_lt p hp0 _ 0 hp0
    · rw [if_neg h]; trivial
  · unfold mulMany
    by_cases h : (cols.all (fun col => col.length == u.length) &&
        (match m2 with | none => true | some l => l.length == u.length)) = true
    · rw [if_pos h]
      show (List.all _ (allLt p)) = true
      apply List.all_eq_true.mpr
      intro row hrow
      rcases List.mem_map.mp hrow with ⟨col, _, rfl⟩
      exact (allLt_iff p _).mpr (zipWith_mulmod_all_lt p hp0 col _)
    · rw [if_neg h]; trivial
  · exact (allLt_iff p _).mpr (powerSeriesAux_all_lt p x hp0 y _ (Nat.mod_lt _ hp0))
  · apply (allLt_iff p _).mpr
    intro c hc
    rcases List.mem_map.mp hc with ⟨i, _, rfl⟩
    exact Nat.mod_lt _ hp0
  · unfold getRootOfUnity
    by_cases h : (p - 1) % y = 0 ∧ 0 < y
    · rw [if_pos h]
      by_cases h2 : primitiveCheck p (exp p (findGenerator p) ((p - 1) / y)) y = true
      · rw [if_pos h2]
        exact exp_lt p _ _ hp0
      · rw [if_neg h2]; trivial
    · rw [if_neg h]; trivial
  · apply (allLt_iff p _).mpr
    intro c hc
    rcases List.mem_map.mp hc with ⟨i, _, rfl⟩
    exact Nat.mod_lt _ hp0
  · exact (allLt_iff p _).mpr (addPolys_all_lt p hp0 u w)
  · exact (allLt_iff p _).mpr (subPolys_all_lt p hp0 u w)
  · exact (allLt_iff p _).mpr (mulPolys_all_lt p hp0 u w)
  · cases h : divPolys p u w with
    | error e => show True; trivial
    | ok q =>
      show allLt p q = true
      exact (allLt_iff p _).mpr (divPolys_ok_all_lt p hp0 u w q h)
  · apply (allLt_iff p _).mpr
    intro c hc
    rcases List.mem_map.mp hc with ⟨v, _, rfl⟩
    exact Nat.mod_lt _ hp0
  · apply (allLt_iff p _).mpr
    intro c hc
    rcases List.mem_map.mp hc with ⟨s, _, rfl⟩
    exact evalPolyAt_lt p hp0 u s
  · cases h : interpolate p u w with
    | error e => show True; trivial
    | ok out =>
      show allLt p out = true
      exact (allLt_iff p _).mpr (interpolate_ok_all_lt p hp0 u w out h)
  · apply (allLt_iff p _).mpr
    intro c hc
    rcases List.mem_map.mp hc with ⟨s, _, rfl⟩
    exact Nat.mod_lt _ hp0
  · unfold interpolateQuarticBatch
    by_cases h : (xSets.all (fun row => row.length == 4) &&
        ySets.all (fun row => row.length == 4) && (xSets.length == ySets.length)) = true
    · rw [if_pos h]
      cases hm : (List.zip xSets ySets).mapM (fun xy => interpolate p xy.1 xy.2) with
      | error e => show True; trivial
      | ok out =>
        show (out.all (allLt p)) = true
        apply List.all_eq_true.mpr
        intro row hrow
        exact (allLt_iff p _).mpr (quarticBatch_rows_lt p hp0 _ out hm row hrow)
    · rw [if_neg h]; trivial

-- ## Concrete witnesses

/-- Witness for C1 at `p = 17`, `r = 4` (a primitive fourth root of unity),
`poly = [1,2,3,5]`. -/
theorem interpolateRoots_inverts_evalPolyAtRoots_witness :
    interpolateRoots 17 (getPowerCycle 17 4 4)
      (evalPolyAtRoots 17 [1, 2, 3, 5] (getPowerCycle 17 4 4)) = [1, 2, 3, 5] :=
  interpolateRoots_inverts_evalPolyAtRoots 17 4 4 [1, 2, 3, 5] (by norm_num)
    (by decide) (by decide) (by decide) (by decide) (by decide) (by decide)

/-- Witness for C2 at `p = 5` on concrete inputs for every operation. -/
theorem all_ops_canonical_range_witness :
    add 5 3 4 < 5 ∧ sub 5 3 4 < 5 ∧ mul 5 3 4 < 5 ∧ fmod 5 (-7) < 5 ∧
    exp 5 3 4 < 5 ∧ okLt 5 (inv 5 3) ∧ okLt 5 (div 5 3 4) ∧
    okAllLt 5 (invMany 5 [1, 2]) ∧ okLt 5 (combine 5 [1, 2] [2, 3]) ∧
    okAllLt 5 (combineMany 5 [[1, 2], [3, 4]] [1, 2]) ∧
    okMatLt 5 (mulMany 5 [[1, 2], [3, 4]] [1, 2] (some [2, 3])) ∧
    allLt 5 (getPowerSeries 5 3 4) = true ∧
    allLt 5 (prng 5 (fun s i => s + i) 3 4) = true ∧
    okLt 5 (getRootOfUnity 5 4) ∧
    allLt 5 (getPowerCycle 5 3 4) = true ∧
    allLt 5 (addPolys 5 [1, 2] [2, 3]) = true ∧
    allLt 5 (subPolys 5 [1, 2] [2, 3]) = true ∧
    allLt 5 (mulPolys 5 [1, 2] [2, 3]) = true ∧ okAllLt 5 (divPolys 5 [1, 2] [2, 3]) ∧
    allLt 5 (mulPolyByConstant 5 [1, 2] 3) = true ∧
    evalPolyAt 5 [1, 2] 3 < 5 ∧
    allLt 5 (evalPolyAtRoots 5 [1, 2] [2, 3]) = true ∧
    okAllLt 5 (interpolate 5 [1, 2] [2, 3]) ∧
    allLt 5 (interpolateRoots 5 [1, 2] [2, 3]) = true ∧
    okMatLt 5 (interpolateQuarticBatch 5 [[0, 1, 2, 3]] [[1, 2, 3, 4]]) :=
  all_ops_canonical_range 5 (-7) (fun s i => s + i) 3 4 [1, 2] [2, 3]
    [[1, 2], [3, 4]] [[0, 1, 2, 3]] [[1, 2, 3, 4]] (some [2, 3]) (by decide)

/-- Witness for C3 at `p = 7`, `a = [1,2]`, `b = [3,4,5]`, coefficient `2`. -/
theorem mulPolys_is_convolution_witness :
    (mulPolys 7 [1, 2] [3, 4, 5]).getD 2 0 =
      (∑ i ∈ Finset.range 3, ([1, 2] : List ℕ).getD i 0 *
        ([3, 4, 5] : List ℕ).getD (2 - i) 0) % 7 :=
  mulPolys_is_convolution 7 [1, 2] [3, 4, 5] 2 (by decide)

/-- Witness for C4 at `p = 7`, dividing `[2,5,3] = (1+x)(2+3x)` by `[1,1]`. -/
theorem divPolys_long_division_witness :
    divPolysSpec 7 [2, 5, 3] [1, 1] (divPolys 7 [2, 5, 3] [1, 1]) :=
  divPolys_long_division 7 [2, 5, 3] [1, 1] (by norm_num) (by decide)

/-- Witness for C5 at `p = 7`, `values = [2,3,4]`. -/
theorem invMany_spec_witness :
    ((∀ v ∈ ([2, 3, 4] : List ℕ), v % 7 ≠ 0) →
      invMany 7 [2, 3, 4] = ([2, 3, 4] : List ℕ).mapM (inv 7))
    ∧ ((∃ v ∈ ([2, 3, 4] : List ℕ), v % 7 = 0) →
      invMany 7 [2, 3, 4] = .error .NotInvertible) :=
  invMany_spec 7 [2, 3, 4] (by norm_num)

/-- Witness for C6 at `p = 337`, `order = 8` (the spec's concrete scenario). -/
theorem getRootOfUnity_spec_witness :
    (¬ (8 : ℕ) ∣ (337 - 1) → getRootOfUnity 337 8 = .error .InvalidOrder)
    ∧ rootOkSpec 337 8 (getRootOfUnity 337 8) :=
  getRootOfUnity_spec 337 8 (by norm_num)

/-- Witness for C7 at `p = 7`, `x = 3`, `y = 4`, `v = 0`. -/
theorem div_inv_error_spec_witness :
    (div 7 3 4 = .error .DivisionByZero ↔ 4 % 7 = 0)
    ∧ (4 % 7 ≠ 0 → div 7 3 4 = .ok (3 * invVal 7 4 % 7) ∧ inv 7 4 = .ok (invVal 7 4))
    ∧ (inv 7 0 = .error .NotInvertible ↔ 0 % 7 = 0) :=
  div_inv_error_spec 7 3 4 0

/-- Witness for C8 at `p = 17`, nodes `[1,2,3]`, polynomial `[5,0,3]`. -/
theorem interpolate_spec_witness :
    (¬ ([1, 2, 3] : List ℕ).Nodup →
      interpolate 17 [1, 2, 3] [9, 9, 9] = .error .DuplicateXCoordinate)
    ∧ (([1, 2, 3] : List ℕ).Nodup →
      interpolate 17 [1, 2, 3] (([1, 2, 3] : List ℕ).map (evalPolyAt 17 [5, 0, 3]))
        = .ok [5, 0, 3]) :=
  interpolate_spec 17 [1, 2, 3] [9, 9, 9] [5, 0, 3] (by norm_num)
    (by decide) (by decide) (by decide)

/-- Witness for C9 at `p = 11` with a concrete hash expansion. -/
theorem prng_deterministic_witness :
    prng 11 (fun s i => s * i + 1) 5 3 = prng 11 (fun s i => s * i + 1) 5 3 :=
  prng_deterministic 11 (fun s i => s * i + 1) 5 5 3 3 rfl rfl

end Galois
